import Mathlib

set_option maxHeartbeats 1000000
set_option maxRecDepth 4000

/-!
Shallow embedding of the Multi-Window Raycast extension.

Sources: the window manager module (AppleScript automation of the macOS
window server through System Events), the storage module (persistence of
window groups through the Raycast LocalStorage key-value store), and the
create-group / switch-group commands.

External collaborators are modelled as explicit state threaded through the
functions: the window server is a list of processes, each with a name, a
bundle identifier, a visible flag, a background-only flag and a front-to-back
stack of windows; the LocalStorage blob is an optional parsed storage record.
Every external call that can fail carries a Boolean fault oracle standing for
the failure of that one call, mirroring where the TypeScript code catches or
rethrows.
-/

/-- Window record used throughout the extension (types module, WindowInfo). -/
structure WindowInfo where
  appName : String
  windowTitle : String
  windowId : String
  bundleId : Option String
deriving DecidableEq, Repr

/-- Persisted group record (types module, WindowGroup). -/
structure WindowGroup where
  id : String
  name : String
  windows : List WindowInfo
  createdAt : String
  updatedAt : String
deriving DecidableEq, Repr

/-- Shape of the stored JSON blob (types module, GroupsStorage). The groups
field is optional because the code guards the parsed value with an or-empty
fallback. -/
structure GroupsStorage where
  groups : Option (List WindowGroup)
deriving DecidableEq, Repr

/-- Model of one window known to the window server: its title and whether its
AXMinimized attribute is set. -/
structure Win where
  title : String
  minimized : Bool
deriving DecidableEq, Repr

/-- Model of one running process known to System Events. The windows list is
ordered front to back, so the head is the window that is frontmost within the
application. -/
structure Proc where
  name : String
  bundleId : String
  visible : Bool
  backgroundOnly : Bool
  windows : List Win
deriving DecidableEq, Repr

/-- Model of the whole window-server state: the running processes and the
name of the frontmost application, when one has been raised. -/
structure SystemState where
  procs : List Proc
  frontApp : Option String
deriving DecidableEq, Repr

/-- Result of a switch (restoreWindows return value). -/
structure SwitchResult where
  shown : Nat
  notFound : List WindowInfo
deriving DecidableEq, Repr

/-- Fault oracle for the external calls made during one switch: the single
minimize-all-except script, the per-application visibility script (indexed by
application name) and the per-window restore script (indexed by loop
position). -/
structure Oracle where
  minFault : Bool
  visFault : String → Bool
  winFault : Nat → Bool

/-! ## Storage module -/

/-- Load all saved window groups (storage module, loadGroups). A read fault
or an absent blob degrades to the empty list; an absent groups field inside
the blob also degrades to the empty list. -/
def loadGroups (data : Option GroupsStorage) (loadFault : Bool) : List WindowGroup :=
  if loadFault then []
  else
    match data with
    | none => []
    | some storage => storage.groups.getD []

/-- Save window groups to storage (storage module, saveGroups). A write fault
is rethrown to the caller; otherwise the blob now holds exactly the given
groups. -/
def saveGroups (groups : List WindowGroup) (saveFault : Bool) :
    Except String (Option GroupsStorage) :=
  if saveFault then Except.error "Error saving groups"
  else Except.ok (some { groups := some groups })

/-- Create a new window group (storage module, createGroup): load, append a
record stamped with the current time, save. The nowId and nowIso arguments
stand for Date.now and the ISO timestamp taken at the call. -/
def createGroup (name : String) (windows : List WindowInfo) (nowId nowIso : String)
    (data : Option GroupsStorage) (loadFault saveFault : Bool) :
    Except String (WindowGroup × Option GroupsStorage) :=
  let groups := loadGroups data loadFault
  let newGroup : WindowGroup :=
    { id := nowId, name := name, windows := windows
      createdAt := nowIso, updatedAt := nowIso }
  match saveGroups (groups ++ [newGroup]) saveFault with
  | Except.error e => Except.error e
  | Except.ok d => Except.ok (newGroup, d)

/-- Delete a window group (storage module, deleteGroup): load, keep every
group whose id differs, save. -/
def deleteGroup (id : String) (data : Option GroupsStorage) (loadFault saveFault : Bool) :
    Except String (Option GroupsStorage) :=
  let groups := loadGroups data loadFault
  saveGroups (groups.filter (fun g => !(g.id == id))) saveFault

/-- Composite key of a window (create-group module, getWindowKey). -/
def getWindowKey (w : WindowInfo) : String :=
  w.appName ++ "::" ++ w.windowTitle

/-- Match key over a bare application name and title, the same composite used
by getWindowKey. -/
def matchKey (appName title : String) : String :=
  appName ++ "::" ++ title

/-- Characters treated as whitespace by the JavaScript trim used in the
sources (space, tab, newline, carriage return). -/
def isJsWhitespace (c : Char) : Bool :=
  c == ' ' || c == '\t' || c == '\n' || c == '\r'

/-- Trim whitespace from both ends of a character list. -/
def trimChars (cs : List Char) : List Char :=
  ((cs.dropWhile isJsWhitespace).reverse.dropWhile isJsWhitespace).reverse

/-- Trim whitespace from both ends of a string (JavaScript String.trim). -/
def trimStr (s : String) : String :=
  String.mk (trimChars s.data)

/-- Lower-case every character of a string (JavaScript String.toLowerCase,
restricted to the character-wise case mapping). -/
def toLowerCase (s : String) : String :=
  String.mk (s.data.map Char.toLower)

/-- Validation and creation performed when the create-group form is submitted
(create-group module, handleSubmit): reject an empty trimmed name, reject a
name that collides case-insensitively with an existing group, otherwise
create the group from the selected windows. -/
def handleSubmit (rawName : String) (selectedWindows : List WindowInfo)
    (nowId nowIso : String) (data : Option GroupsStorage) (loadFault saveFault : Bool) :
    Except String (Option GroupsStorage) :=
  let name := trimStr rawName
  if name == "" then Except.error "Group name is required"
  else
    let existingGroups := loadGroups data loadFault
    if existingGroups.any (fun g => toLowerCase g.name == toLowerCase name) then
      Except.error "A group with this name already exists"
    else
      let windowsToSave := selectedWindows.map (fun w =>
        { appName := w.appName, windowTitle := w.windowTitle
          windowId := w.windowId, bundleId := w.bundleId : WindowInfo })
      match createGroup name windowsToSave nowId nowIso data loadFault saveFault with
      | Except.error e => Except.error e
      | Except.ok (_, d) => Except.ok d

/-! ## Window manager module -/

/-- Key used by the minimize-all-except script to decide whether a window is
kept: process name and window title joined by a triple pipe. -/
def winKey (procName title : String) : String :=
  procName ++ "|||" ++ title

/-- Keep-list entry built from a stored window reference. -/
def keepKey (w : WindowInfo) : String :=
  winKey w.appName w.windowTitle

/-- One window under the minimize-all-except script: kept when its key is in
the keep list, left alone when already minimized, otherwise minimized. -/
def minimizeWinStep (keep : List String) (procName : String) (w : Win) : Win :=
  if keep.contains (winKey procName w.title) then w
  else if w.minimized then w
  else { w with minimized := true }

/-- One process under the minimize-all-except script: only visible,
non-background processes other than Raycast itself are touched. -/
def minimizeProcStep (keep : List String) (p : Proc) : Proc :=
  if p.visible && !p.backgroundOnly && !(p.bundleId == "com.raycast.macos") then
    { p with windows := p.windows.map (minimizeWinStep keep p.name) }
  else p

/-- Minimize every visible window except the given ones (window manager
module, minimizeAllExcept). The whole pass is one script call, so a fault
fails the operation as a whole and is rethrown. -/
def minimizeAllExcept (keepWindows : List WindowInfo) (o : Oracle) (s : SystemState) :
    Except String SystemState :=
  if o.minFault then Except.error "Error minimizing windows"
  else Except.ok
    { s with procs := s.procs.map (minimizeProcStep (keepWindows.map keepKey)) }

/-- First process with the given name, the one the System Events phrase
process of that name designates. -/
def findFirstProc (name : String) : List Proc → Option Proc
  | [] => none
  | p :: ps => if p.name == name then some p else findFirstProc name ps

/-- Apply an update to the first process with the given name, leaving every
other process unchanged. -/
def updateFirstProc (name : String) (f : Proc → Proc) : List Proc → List Proc
  | [] => []
  | p :: ps => if p.name == name then f p :: ps else p :: updateFirstProc name f ps

/-- First window with the given title, together with the remaining windows in
their original order: the System Events phrase first window whose name is the
title, combined with the effect of taking it out of the stack. -/
def extractFirstWin (title : String) : List Win → Option (Win × List Win)
  | [] => none
  | w :: ws =>
      if w.title == title then some (w, ws)
      else
        match extractFirstWin title ws with
        | none => none
        | some (x, rest) => some (x, w :: rest)

/-- Deduplicate preserving first occurrence, as the JavaScript Set spread
does. -/
def dedupFirst (xs : List String) : List String :=
  xs.foldl (fun acc x => if acc.contains x then acc else acc ++ [x]) []

/-- One application of the visibility pass: a faulted or missing process is
silently skipped, otherwise the process is made visible. -/
def setVisibleStep (o : Oracle) (procs : List Proc) (appName : String) : List Proc :=
  if o.visFault appName then procs
  else updateFirstProc appName (fun p => { p with visible := true }) procs

/-- Visibility pass of restoreWindows: make each distinct target application
visible, best effort. -/
def setVisiblePass (apps : List String) (o : Oracle) (procs : List Proc) : List Proc :=
  apps.foldl (setVisibleStep o) procs

/-- Effect of unminimizing a window and performing AXRaise on it: it moves to
the front of the application window stack with its minimized attribute
cleared. -/
def raiseWin (w : Win) (rest : List Win) : List Win :=
  { w with minimized := false } :: rest

/-- One iteration of the per-window restore loop. A faulted script call or a
missing process leaves the state unchanged and reports not found; a running
process is first brought frontmost, then its first window with the stored
title, if any, is unminimized and raised. The Boolean reports whether the
script returned found. -/
def restoreStep (o : Oracle) (i : Nat) (r : WindowInfo) (s : SystemState) :
    SystemState × Bool :=
  if o.winFault i then (s, false)
  else
    match findFirstProc r.appName s.procs with
    | none => (s, false)
    | some p =>
        let s1 : SystemState := { s with frontApp := some r.appName }
        match extractFirstWin r.windowTitle p.windows with
        | none => (s1, false)
        | some (w, rest) =>
            let procs2 := updateFirstProc r.appName
              (fun q => { q with windows := raiseWin w rest }) s1.procs
            ({ s1 with procs := procs2 }, true)

/-- The per-window restore loop: process the references in list order,
counting the found ones and collecting the missed ones in order. -/
def restoreLoop (o : Oracle) : List WindowInfo → Nat → SystemState →
    SystemState × Nat × List WindowInfo
  | [], _, s => (s, 0, [])
  | r :: rest, i, s =>
      let step := restoreStep o i r s
      let next := restoreLoop o rest (i + 1) step.1
      if step.2 then (next.1, next.2.1 + 1, next.2.2)
      else (next.1, next.2.1, r :: next.2.2)

/-- Unminimize and raise the stored windows (window manager module,
restoreWindows): visibility pass over the distinct application names, then
the per-window restore loop. Per-item faults are swallowed, so the function
always returns a result. -/
def restoreWindows (savedWindows : List WindowInfo) (o : Oracle) (s : SystemState) :
    SystemState × SwitchResult :=
  let uniqueApps := dedupFirst (savedWindows.map (fun w => w.appName))
  let s1 : SystemState := { s with procs := setVisiblePass uniqueApps o s.procs }
  let out := restoreLoop o savedWindows 0 s1
  (out.1, { shown := out.2.1, notFound := out.2.2 })

/-- Switch to a group (switch-group command, switchToGroup): minimize
everything outside the group, then restore the group windows. A fault of the
minimize phase propagates; otherwise the switch result is produced. -/
def switchToGroup (groupWindows : List WindowInfo) (o : Oracle) (s : SystemState) :
    Except String (SystemState × SwitchResult) :=
  match minimizeAllExcept groupWindows o s with
  | Except.error e => Except.error e
  | Except.ok s1 => Except.ok (restoreWindows groupWindows o s1)

/-- Processes whose windows the snapshot and the minimize pass consider:
visible, not background only, and not Raycast itself. -/
def eligibleProc (p : Proc) : Bool :=
  p.visible && !p.backgroundOnly && !(p.bundleId == "com.raycast.macos")

/-- Name and title pairs of the unminimized windows of one process, when it
is eligible. -/
def procVisPairs (p : Proc) : List (String × String) :=
  if eligibleProc p then
    (p.windows.filter (fun w => !w.minimized)).map (fun w => (p.name, w.title))
  else []

/-- The set of application name and title pairs of unminimized windows of
eligible processes: the on-screen state a switch is specified against. -/
def visibleWindows (s : SystemState) : List (String × String) :=
  s.procs.flatMap procVisPairs

/-- Whether an Except value is an error. -/
def isErr {ε α : Type} : Except ε α → Bool
  | Except.error _ => true
  | Except.ok _ => false

/-! ## Snapshot provider (window manager module, getOpenWindows) -/

/-- One line of the snapshot script output: process name, window title and
bundle identifier joined by triple pipes. -/
def snapshotLine (procName bundleId title : String) : List Char :=
  procName.data ++ '|' :: '|' :: '|' :: (title.data ++ '|' :: '|' :: '|' :: bundleId.data)

/-- All lines emitted by the snapshot script: one line per unminimized,
non-empty-titled window of each visible, non-background process. -/
def snapshotLines (procs : List Proc) : List (List Char) :=
  (procs.filter (fun p => p.visible && !p.backgroundOnly)).flatMap (fun p =>
    (p.windows.filter (fun w => !(w.title == "") && !w.minimized)).map (fun w =>
      snapshotLine p.name p.bundleId w.title))

/-- Raw script output: the lines each followed by a newline. -/
def snapshotScriptOutput (procs : List Proc) : List Char :=
  (snapshotLines procs).foldr (fun l acc => l ++ '\n' :: acc) []

/-- Split a character list at every occurrence of the given character
(JavaScript split on a one-character separator). -/
def splitChar (sep : Char) : List Char → List (List Char)
  | [] => [[]]
  | c :: cs =>
      if c == sep then [] :: splitChar sep cs
      else
        match splitChar sep cs with
        | [] => [[c]]
        | g :: gs => (c :: g) :: gs

/-- Split a character list at every occurrence of a triple pipe (JavaScript
split on the triple-pipe separator). -/
def splitPipes : List Char → List (List Char)
  | x :: y :: z :: rest =>
      if x == '|' && y == '|' && z == '|' then [] :: splitPipes rest
      else
        match splitPipes (y :: z :: rest) with
        | [] => [[x]]
        | g :: gs => (x :: g) :: gs
  | cs => [cs]

/-- Parse one snapshot line: at least three triple-pipe fields are required,
the fields are trimmed, and a line whose bundle identifier is the Raycast one
is skipped. -/
def parseSnapshotLine (line : List Char) : Option WindowInfo :=
  match splitPipes line with
  | p0 :: p1 :: p2 :: _ =>
      let appName := String.mk (trimChars p0)
      let windowTitle := String.mk (trimChars p1)
      let bundle := String.mk (trimChars p2)
      if bundle == "com.raycast.macos" then none
      else some
        { appName := appName, windowTitle := windowTitle
          windowId := appName ++ "::" ++ windowTitle, bundleId := some bundle }
  | _ => none

/-- Parse the whole script output: trim it, split it into lines, drop the
empty lines, parse each remaining line. -/
def parseSnapshot (raw : List Char) : List WindowInfo :=
  (((splitChar '\n' (trimChars raw)).filter (fun l => !l.isEmpty)).filterMap
    parseSnapshotLine)

/-- Get all open windows (window manager module, getOpenWindows): a script
fault degrades to the empty snapshot, otherwise the script output is parsed. -/
def getOpenWindows (scriptFault : Bool) (procs : List Proc) : List WindowInfo :=
  if scriptFault then []
  else parseSnapshot (snapshotScriptOutput procs)

/-! ## Derived predicates used in the specification statements -/

/-- Decidable equality for Except values, used to state results of fallible
operations. -/
instance {e a : Type} [DecidableEq e] [DecidableEq a] : DecidableEq (Except e a) := fun x y =>
  match x, y with
  | Except.error u, Except.error v =>
      if h : u = v then isTrue (by rw [h]) else isFalse (by simp [h])
  | Except.ok u, Except.ok v =>
      if h : u = v then isTrue (by rw [h]) else isFalse (by simp [h])
  | Except.error _, Except.ok _ => isFalse (by simp)
  | Except.ok _, Except.error _ => isFalse (by simp)

/-- Whether a reference misses: no process with its application name, or that
process has no window with its title. This is what decides found versus not
found in a fault-free restore step. -/
def missRef (procs : List Proc) (r : WindowInfo) : Bool :=
  match findFirstProc r.appName procs with
  | none => true
  | some p => !(p.windows.any (fun w => w.title == r.windowTitle))

/-- First window with the given title, if any. -/
def firstWin (title : String) (ws : List Win) : Option Win :=
  (extractFirstWin title ws).map (fun x => x.1)

/-- Two processes that agree on everything except the order and minimized
flags of their windows: titles agree up to permutation. -/
def procSim (p q : Proc) : Prop :=
  p.name = q.name ∧ p.bundleId = q.bundleId ∧ p.visible = q.visible ∧
    p.backgroundOnly = q.backgroundOnly ∧ List.Perm (p.windows.map Win.title) (q.windows.map Win.title)

/-- Two processes that agree on everything, their windows up to
permutation of whole window records. -/
def procPerm (p q : Proc) : Prop :=
  p.name = q.name ∧ p.bundleId = q.bundleId ∧ p.visible = q.visible ∧
    p.backgroundOnly = q.backgroundOnly ∧ List.Perm p.windows q.windows

/-- Invariant established by the exclusionary minimize pass: in every
non-Raycast, non-background process, every window whose keep key is not in
the keep list is minimized. -/
def KeepInv (keep : List String) (procs : List Proc) : Prop :=
  ∀ p ∈ procs, p.bundleId ≠ "com.raycast.macos" → p.backgroundOnly = false →
    ∀ w ∈ p.windows, winKey p.name w.title ∉ keep → w.minimized = true

/-- The first process with the application name of the reference exists and
its frontmost window is an unminimized window with the reference title. -/
def headFact (r : WindowInfo) (procs : List Proc) : Prop :=
  ∃ p, findFirstProc r.appName procs = some p ∧
    ∃ w rest, p.windows = w :: rest ∧ w.title = r.windowTitle ∧ w.minimized = false

/-- In the first process with the given application name, the first window
with the given title, when it exists, is not minimized. -/
def firstMatchUnmin (appName title : String) (procs : List Proc) : Prop :=
  ∀ p, findFirstProc appName procs = some p →
    ∀ w, firstWin title p.windows = some w → w.minimized = false

/-- Every running process is visible (no application is hidden). -/
def allVisible (procs : List Proc) : Prop := ∀ p ∈ procs, p.visible = true

instance (procs : List Proc) : Decidable (allVisible procs) :=
  inferInstanceAs (Decidable (∀ p ∈ procs, p.visible = true))

/-- Whether the first character, if any, is not whitespace. -/
def headOkB (cs : List Char) : Bool :=
  match cs with
  | [] => true
  | c :: _ => !isJsWhitespace c

/-- Whether the last character, if any, is not whitespace. -/
def lastOkB (cs : List Char) : Bool :=
  headOkB cs.reverse

/-- Whether neither end of the character list is whitespace. -/
def edgeOk (cs : List Char) : Bool :=
  headOkB cs && lastOkB cs

/-- A field that survives the snapshot line format: free of newlines and
pipes and carrying no surrounding whitespace. -/
def cleanField (s : String) : Prop :=
  '\n' ∉ s.data ∧ '|' ∉ s.data ∧ edgeOk s.data = true

instance (s : String) : Decidable (cleanField s) :=
  inferInstanceAs (Decidable ('\n' ∉ s.data ∧ '|' ∉ s.data ∧ edgeOk s.data = true))

/-- Lines joined by single newlines with no trailing newline. -/
def joinLinesNL : List (List Char) → List Char
  | [] => []
  | [l] => l
  | l :: ls => l ++ '\n' :: joinLinesNL ls

/-- An oracle under which no external call faults. -/
def faultFree (o : Oracle) : Prop :=
  o.minFault = false ∧ (∀ a, o.visFault a = false) ∧ ∀ i, o.winFault i = false

/-- The all-clear oracle. -/
def oFF : Oracle := { minFault := false, visFault := fun _ => false, winFault := fun _ => false }

/-! ## Concrete inputs used by witnesses and counterexamples -/

/-- Group with two windows of the same application, used for the C1
counterexample. -/
def gC1 : List WindowInfo :=
  [{ appName := "A", windowTitle := "t1", windowId := "A::t1", bundleId := some "b" },
   { appName := "A", windowTitle := "t2", windowId := "A::t2", bundleId := some "b" }]

/-- Windows of the C1 counterexample state. -/
def wsC1 : List Win :=
  [{ title := "t1", minimized := false }, { title := "t2", minimized := false }]

/-- State with one visible application owning both windows of gC1. -/
def sC1 : SystemState :=
  { procs := [{ name := "A", bundleId := "b", visible := true, backgroundOnly := false, windows := wsC1 }],
    frontApp := none }

/-- Single-reference group naming application A, used by C3 and C5. -/
def gA : List WindowInfo :=
  [{ appName := "A", windowTitle := "t", windowId := "A::t", bundleId := some "b" }]

/-- Oracle whose per-application visibility calls all fault. -/
def oVisFault : Oracle :=
  { minFault := false, visFault := fun _ => true, winFault := fun _ => false }

/-- Visible single-app state owning the window of gA. -/
def sA : SystemState :=
  { procs := [{ name := "A", bundleId := "b", visible := true, backgroundOnly := false, windows := [{ title := "t", minimized := false }] }],
    frontApp := none }

/-- Windows of the hidden-application counterexample state. -/
def wsHidden : List Win :=
  [{ title := "t", minimized := false }, { title := "u", minimized := false }]

/-- State in which application A is hidden and owns one group window and one
other window, used for the C3 counterexample. -/
def sHidden : SystemState :=
  { procs := [{ name := "A", bundleId := "b", visible := false, backgroundOnly := false, windows := wsHidden }],
    frontApp := none }

/-- The stored group named Work. -/
def gWork : WindowGroup :=
  { id := "1", name := "Work", windows := [], createdAt := "c", updatedAt := "u" }

/-- A second stored group named Play. -/
def gPlay : WindowGroup :=
  { id := "2", name := "Play", windows := [], createdAt := "c2", updatedAt := "u2" }

/-- Storage blob holding one group named Work. -/
def dWork : Option GroupsStorage :=
  some { groups := some [gWork] }

/-- Storage blob holding two groups with distinct ids. -/
def dTwo : Option GroupsStorage :=
  some { groups := some [gWork, gPlay] }

/-- State whose only window has a whitespace-only title, used for the C9
counterexample. -/
def pBlankTitle : List Proc :=
  [{ name := "App", bundleId := "b", visible := true, backgroundOnly := false, windows := [{ title := " ", minimized := false }] }]

/-- State with clean fields, used for the C9 witness. -/
def pClean : List Proc :=
  [{ name := "App", bundleId := "b", visible := true, backgroundOnly := false, windows := [{ title := "doc1", minimized := false }] }]

/-- Windows of the final state of the C1 counterexample: the later raise put
t2 in front of t1. -/
def wsC1After : List Win :=
  [{ title := "t2", minimized := false }, { title := "t1", minimized := false }]

/-- Process of the final state of the C1 counterexample. -/
def procC1After : Proc :=
  { name := "A", bundleId := "b", visible := true, backgroundOnly := false, windows := wsC1After }

/-- Final state of the C1 counterexample. -/
def sC1After : SystemState :=
  { procs := [procC1After], frontApp := some "A" }

/-- Result of the C1 counterexample switch. -/
def resC1 : SwitchResult := { shown := 2, notFound := [] }

/-- Windows of the C1 witness state: the group window minimized, another
window visible. -/
def wsW1 : List Win :=
  [{ title := "t1", minimized := true }, { title := "t2", minimized := false }]

/-- Single-reference group of the C1 witness (one application, so no two
references share an application). -/
def gW1 : List WindowInfo :=
  [{ appName := "A", windowTitle := "t1", windowId := "A::t1", bundleId := some "b" }]

/-- Initial state of the C1 witness: two visible applications. -/
def sW1 : SystemState :=
  { procs := [{ name := "A", bundleId := "b", visible := true, backgroundOnly := false, windows := wsW1 }, { name := "B", bundleId := "c", visible := true, backgroundOnly := false, windows := [{ title := "u", minimized := false }] }], frontApp := none }

/-- Final state of the C1 witness switch. -/
def sW1After : SystemState :=
  { procs := [{ name := "A", bundleId := "b", visible := true, backgroundOnly := false, windows := [{ title := "t1", minimized := false }, { title := "t2", minimized := true }] }, { name := "B", bundleId := "c", visible := true, backgroundOnly := false, windows := [{ title := "u", minimized := true }] }], frontApp := some "A" }

/-- Result of the C1 witness switch. -/
def resW1 : SwitchResult := { shown := 1, notFound := [] }

/-- State after the first switch of the C3 counterexample: the hidden
application was made visible, exposing both windows. -/
def sHid1 : SystemState :=
  { procs := [{ name := "A", bundleId := "b", visible := true, backgroundOnly := false, windows := wsHidden }], frontApp := some "A" }

/-- State after the second switch of the C3 counterexample: the exposed
non-group window is now minimized. -/
def sHid2 : SystemState :=
  { procs := [{ name := "A", bundleId := "b", visible := true, backgroundOnly := false, windows := [{ title := "t", minimized := false }, { title := "u", minimized := true }] }], frontApp := some "A" }

/-- Result of both C3 counterexample switches. -/
def resHid : SwitchResult := { shown := 1, notFound := [] }

/-- Fixed point state of the C3 witness. -/
def sA1 : SystemState :=
  { procs := [{ name := "A", bundleId := "b", visible := true, backgroundOnly := false, windows := [{ title := "t", minimized := false }] }], frontApp := some "A" }

/-- Result of the C3 witness switches. -/
def resA1 : SwitchResult := { shown := 1, notFound := [] }

/-! ## Helper lemmas -/

/-- Splitting around a separator that starts with a character absent from
both prefixes is injective. -/
theorem append_sep_inj (ch : Char) (sep : List Char) :
    ∀ (a a' b b' : List Char), ch ∉ a → ch ∉ a' →
      a ++ (ch :: sep) ++ b = a' ++ (ch :: sep) ++ b' → a = a' ∧ b = b' := by
  intro a
  induction a with
  | nil =>
      intro a' b b' _ ha' h
      cases a' with
      | nil =>
          refine ⟨rfl, ?_⟩
          simpa using h
      | cons x t =>
          simp only [List.nil_append, List.cons_append, List.cons.injEq] at h
          exact absurd (h.1 ▸ List.mem_cons_self x t) ha'
  | cons c a ih =>
      intro a' b b' ha ha' h
      cases a' with
      | nil =>
          simp only [List.nil_append, List.cons_append, List.cons.injEq] at h
          exact absurd (h.1 ▸ List.mem_cons_self c a) (fun hc => ha (h.1 ▸ hc))
      | cons x t =>
          simp only [List.cons_append, List.cons.injEq] at h
          obtain ⟨rfl, h2⟩ := h
          have hrec := ih t b b'
            (fun hc => ha (List.mem_cons_of_mem _ hc))
            (fun hc => ha' (List.mem_cons_of_mem _ hc)) h2
          exact ⟨by rw [hrec.1], hrec.2⟩

/-- Match keys split injectively when the application names carry no colon. -/
theorem matchKey_inj (s1 t1 s2 t2 : String)
    (h1 : ':' ∉ s1.data) (h2 : ':' ∉ s2.data)
    (h : matchKey s1 t1 = matchKey s2 t2) : s1 = s2 ∧ t1 = t2 := by
  have hdata : s1.data ++ (':' :: [':']) ++ t1.data =
      s2.data ++ (':' :: [':']) ++ t2.data := by
    have hc := congrArg String.data h
    simpa [matchKey, String.data_append, List.append_assoc] using hc
  have hsplit := append_sep_inj ':' [':'] s1.data s2.data t1.data t2.data h1 h2 hdata
  exact ⟨String.ext hsplit.1, String.ext hsplit.2⟩

/-- Keep keys split injectively when the application names carry no pipe. -/
theorem winKey_inj (s1 t1 s2 t2 : String)
    (h1 : '|' ∉ s1.data) (h2 : '|' ∉ s2.data)
    (h : winKey s1 t1 = winKey s2 t2) : s1 = s2 ∧ t1 = t2 := by
  have hdata : s1.data ++ ('|' :: ['|', '|']) ++ t1.data =
      s2.data ++ ('|' :: ['|', '|']) ++ t2.data := by
    have hc := congrArg String.data h
    simpa [winKey, String.data_append, List.append_assoc] using hc
  have hsplit := append_sep_inj '|' ['|', '|'] s1.data s2.data t1.data t2.data h1 h2 hdata
  exact ⟨String.ext hsplit.1, String.ext hsplit.2⟩

/-- Shape of the restore loop output: every reference lands in exactly one of
shown and notFound, and notFound is an in-order selection of the input. -/
theorem restoreLoop_shape (o : Oracle) (refs : List WindowInfo) :
    ∀ (i : Nat) (s : SystemState),
      (restoreLoop o refs i s).2.1 + (restoreLoop o refs i s).2.2.length = refs.length ∧
        List.Sublist (restoreLoop o refs i s).2.2 refs := by
  induction refs with
  | nil => intro i s; simp [restoreLoop]
  | cons r rest ih =>
      intro i s
      obtain ⟨h1, h2⟩ := ih (i + 1) (restoreStep o i r s).1
      simp only [restoreLoop]
      cases hb : (restoreStep o i r s).2
      · simp only [hb, Bool.false_eq_true, if_false]
        refine ⟨?_, List.Sublist.cons₂ r h2⟩
        simp only [List.length_cons]
        omega
      · simp only [hb, if_true]
        refine ⟨?_, List.Sublist.cons r h2⟩
        simp only [List.length_cons]
        omega

/-! ## Claim theorems -/

/-- C2 counterexample: match-key equality does not coincide with
component-wise equality, because the separator can occur inside the fields.
The references with application name A::B and title C and with application
name A and title B::C share the match key but differ component-wise. -/
theorem matchKey_iff_components_false :
    ¬ (∀ r w : WindowInfo, getWindowKey r = getWindowKey w ↔
        r.appName = w.appName ∧ r.windowTitle = w.windowTitle) := by
  intro h
  have hkey : getWindowKey { appName := "A::B", windowTitle := "C", windowId := "", bundleId := none } =
      getWindowKey { appName := "A", windowTitle := "B::C", windowId := "", bundleId := none } := by
    decide
  have hcomp := (h _ _).mp hkey
  exact absurd hcomp.1 (by decide)

/-- C2 amended: matching is case-sensitive component equality with no
normalization, and match-key equality coincides with component-wise equality
provided the application names contain no colon character. -/
theorem matchKey_iff_components (r w : WindowInfo)
    (hr : ':' ∉ r.appName.data) (hw : ':' ∉ w.appName.data) :
    getWindowKey r = getWindowKey w ↔
      r.appName = w.appName ∧ r.windowTitle = w.windowTitle := by
  constructor
  · intro h
    exact matchKey_inj r.appName r.windowTitle w.appName w.windowTitle hr hw h
  · rintro ⟨h1, h2⟩
    unfold getWindowKey
    rw [h1, h2]

/-- Witness for the amended C2 at concrete colon-free inputs. -/
theorem matchKey_iff_components_witness :
    (':' ∉ ("Cursor" : String).data) ∧ (':' ∉ ("Notes" : String).data) ∧
      (getWindowKey { appName := "Cursor", windowTitle := "main.ts", windowId := "", bundleId := none } =
        getWindowKey { appName := "Notes", windowTitle := "main.ts", windowId := "", bundleId := none } ↔
        ("Cursor" : String) = "Notes" ∧ ("main.ts" : String) = "main.ts") :=
  ⟨by decide, by decide,
    matchKey_iff_components _ _ (by decide) (by decide)⟩

/-- C4: the per-window restore step processes the group references in list
order; each found reference increments shown and each missed or faulted
reference is appended to notFound and processing continues, so shown plus the
length of notFound equals the number of references and notFound is an
in-order sublist of the group. -/
theorem restore_soft_failure (g : List WindowInfo) (o : Oracle) (s : SystemState) :
    (restoreWindows g o s).2.shown + (restoreWindows g o s).2.notFound.length = g.length ∧
      List.Sublist (restoreWindows g o s).2.notFound g :=
  restoreLoop_shape o g 0
    { s with procs := setVisiblePass (dedupFirst (g.map (fun w => w.appName))) o s.procs }

/-- C5 counterexample: a fault of every per-application visibility call does
not fail the switch; the call still returns a switch result. -/
theorem visibility_fault_propagation_false :
    ¬ (∀ (g : List WindowInfo) (o : Oracle) (s : SystemState),
        (o.minFault = true ∨ (g ≠ [] ∧ ∀ a, o.visFault a = true)) →
          isErr (switchToGroup g o s) = true) := by
  intro h
  have h2 := h gA oVisFault sA (Or.inr ⟨by decide, fun a => rfl⟩)
  have h3 : isErr (switchToGroup gA oVisFault sA) = false := by decide
  rw [h2] at h3
  exact Bool.noConfusion h3

/-- C5 amended: switchTo fails as a whole exactly when the exclusionary
minimize phase faults; visibility-pass faults are caught per application and
never fail the switch, which then still produces a SwitchResult. -/
theorem switch_error_iff_minimize_fault (g : List WindowInfo) (o : Oracle) (s : SystemState) :
    isErr (switchToGroup g o s) = o.minFault := by
  cases h : o.minFault <;> simp [switchToGroup, minimizeAllExcept, h, isErr]

/-- C6: a load fault and an absent blob both degrade to the empty group list,
while a save fault propagates to the caller as an error. -/
theorem load_fault_empty_save_fault_propagates (data : Option GroupsStorage)
    (gs : List WindowGroup) :
    loadGroups data true = [] ∧ loadGroups none false = [] ∧
      saveGroups gs true = Except.error "Error saving groups" :=
  ⟨rfl, rfl, rfl⟩

/-- C10: saving a group list and immediately loading returns exactly that
list, with the same groups in the same order. -/
theorem save_then_load_roundtrip (gs : List WindowGroup) :
    ∃ d', saveGroups gs false = Except.ok d' ∧ loadGroups d' false = gs :=
  ⟨some { groups := some gs }, rfl, rfl⟩

/-- C7: when some stored group is named Work, submitting the name work fails
with the name-collision error and creates nothing. -/
theorem create_duplicate_name_fails (data : Option GroupsStorage)
    (sel : List WindowInfo) (nowId nowIso : String)
    (h : ∃ g ∈ loadGroups data false, g.name = "Work") :
    handleSubmit "work" sel nowId nowIso data false false =
      Except.error "A group with this name already exists" := by
  obtain ⟨g, hg, hname⟩ := h
  have hAny : (loadGroups data false).any
      (fun x => toLowerCase x.name == toLowerCase (trimStr "work")) = true := by
    rw [List.any_eq_true]
    refine ⟨g, hg, ?_⟩
    rw [hname]
    decide
  have h0 : (trimStr "work" == "") = false := by decide
  simp [handleSubmit, h0, hAny]

/-- Witness for C7 at a concrete store holding a group named Work. -/
theorem create_duplicate_name_fails_witness :
    (∃ g ∈ loadGroups dWork false, g.name = "Work") ∧
      handleSubmit "work" [] "9" "iso" dWork false false =
        Except.error "A group with this name already exists" :=
  ⟨by decide, create_duplicate_name_fails dWork [] "9" "iso" (by decide)⟩

/-- C8: deleting an id removes exactly the groups carrying that id from the
subsequently loaded list, leaves every other group record unchanged and
present, and succeeds as a no-op when no group carries the id. -/
theorem delete_group_spec (id : String) (data : Option GroupsStorage) :
    (∃ d', deleteGroup id data false false = Except.ok d' ∧
        loadGroups d' false = (loadGroups data false).filter (fun g => !(g.id == id)) ∧
        (∀ g ∈ loadGroups d' false, g.id ≠ id) ∧
        (∀ g ∈ loadGroups data false, g.id ≠ id → g ∈ loadGroups d' false)) ∧
      ((∀ g ∈ loadGroups data false, g.id ≠ id) →
        ∃ d', deleteGroup id data false false = Except.ok d' ∧
          loadGroups d' false = loadGroups data false) := by
  constructor
  · refine ⟨some { groups := some ((loadGroups data false).filter (fun g => !(g.id == id))) },
      rfl, rfl, ?_, ?_⟩
    · intro g hgmem
      have := List.mem_filter.mp hgmem
      simpa using this.2
    · intro g hgmem hne
      refine List.mem_filter.mpr ⟨hgmem, ?_⟩
      simpa using hne
  · intro hall
    refine ⟨some { groups := some ((loadGroups data false).filter (fun g => !(g.id == id))) },
      rfl, ?_⟩
    show (loadGroups data false).filter (fun g => !(g.id == id)) = loadGroups data false
    rw [List.filter_eq_self]
    intro g hgmem
    simpa using hall g hgmem

/-- Witness for C8 at a concrete store, discharging the no-op hypothesis with
an id that no stored group carries. -/
theorem delete_group_spec_witness :
    (∀ g ∈ loadGroups dTwo false, g.id ≠ "7") ∧
      ∃ d', deleteGroup "7" dTwo false false = Except.ok d' ∧
        loadGroups d' false = loadGroups dTwo false :=
  ⟨by decide, (delete_group_spec "7" dTwo).2 (by decide)⟩

/-! ## Snapshot parsing lemmas -/

/-- Unfolding of splitPipes on three exposed characters that are not a
triple pipe. -/
theorem splitPipes_cons (c u v : Char) (tl : List Char)
    (h : (c == '|' && (u == '|' && v == '|')) = false) :
    splitPipes (c :: u :: v :: tl) =
      match splitPipes (u :: v :: tl) with
      | [] => [[c]]
      | g :: gs => (c :: g) :: gs := by
  rw [splitPipes]
  simp only [Bool.and_assoc, h, Bool.false_eq_true, if_false]

/-- A pipe-free list does not split. -/
theorem splitPipes_no_pipe (cs : List Char) (h : '|' ∉ cs) : splitPipes cs = [cs] := by
  induction cs with
  | nil => rfl
  | cons c cs ih =>
      cases cs with
      | nil => rfl
      | cons y cs2 =>
          cases cs2 with
          | nil => rfl
          | cons z tl =>
              have hc : (c == '|') = false := by
                simp only [beq_eq_false_iff_ne]
                intro hcc; exact h (hcc ▸ List.mem_cons_self c _)
              rw [splitPipes_cons c y z tl (by simp [hc])]
              rw [ih (fun hy => h (List.mem_cons_of_mem c hy))]

/-- Splitting after a pipe-free field peels exactly that field. -/
theorem splitPipes_append (a r : List Char) (h : '|' ∉ a) :
    splitPipes (a ++ '|' :: '|' :: '|' :: r) = a :: splitPipes r := by
  induction a with
  | nil =>
      rw [List.nil_append, splitPipes]
      simp
  | cons c a2 ih =>
      have hc : (c == '|') = false := by
        simp only [beq_eq_false_iff_ne]
        intro hcc; exact h (hcc ▸ List.mem_cons_self c _)
      have htail : '|' ∉ a2 := fun hy => h (List.mem_cons_of_mem c hy)
      obtain ⟨u, v, tl, heq⟩ : ∃ u v tl, a2 ++ '|' :: '|' :: '|' :: r = u :: v :: tl := by
        cases a2 with
        | nil => exact ⟨_, _, _, rfl⟩
        | cons d a3 =>
            cases a3 with
            | nil => exact ⟨_, _, _, rfl⟩
            | cons e a4 => exact ⟨_, _, _, rfl⟩
      rw [List.cons_append, heq, splitPipes_cons c u v tl (by simp [hc]), ← heq, ih htail]

/-- A separator-free list does not split. -/
theorem splitChar_no_sep (sep : Char) (cs : List Char) (h : sep ∉ cs) :
    splitChar sep cs = [cs] := by
  induction cs with
  | nil => rfl
  | cons c cs ih =>
      have hc : (c == sep) = false := by
        simp only [beq_eq_false_iff_ne]
        intro hcc; exact h (hcc ▸ List.mem_cons_self c _)
      rw [splitChar]
      simp only [hc, Bool.false_eq_true, if_false]
      rw [ih (fun hy => h (List.mem_cons_of_mem c hy))]

/-- Splitting after a separator-free field peels exactly that field. -/
theorem splitChar_append (sep : Char) (l rest : List Char) (h : sep ∉ l) :
    splitChar sep (l ++ sep :: rest) = l :: splitChar sep rest := by
  induction l with
  | nil =>
      rw [List.nil_append, splitChar]
      simp
  | cons c l2 ih =>
      have hc : (c == sep) = false := by
        simp only [beq_eq_false_iff_ne]
        intro hcc; exact h (hcc ▸ List.mem_cons_self c _)
      rw [List.cons_append, splitChar]
      simp only [hc, Bool.false_eq_true, if_false]
      rw [ih (fun hy => h (List.mem_cons_of_mem c hy))]

/-- Dropping whitespace from a list whose head is not whitespace is the
identity. -/
theorem dropWhile_of_headOk (cs : List Char) (h : headOkB cs = true) :
    cs.dropWhile isJsWhitespace = cs := by
  cases cs with
  | nil => rfl
  | cons c cs =>
      have hws : isJsWhitespace c = false := by
        simpa [headOkB] using h
      simp [List.dropWhile_cons, hws]

/-- The head check only sees the left part of an append with a nonempty
left. -/
theorem headOkB_append (l m : List Char) (hne : l ≠ []) :
    headOkB (l ++ m) = headOkB l := by
  cases l with
  | nil => exact absurd rfl hne
  | cons c l2 => rfl

/-- The last check only sees the right part of an append with a nonempty
right. -/
theorem lastOkB_append (l m : List Char) (hne : m ≠ []) :
    lastOkB (l ++ m) = lastOkB m := by
  unfold lastOkB
  rw [List.reverse_append]
  exact headOkB_append m.reverse l.reverse (by simpa using hne)

/-- Trimming is the identity on lists whose two ends are not whitespace. -/
theorem trimChars_of_edgeOk (cs : List Char) (h : edgeOk cs = true) : trimChars cs = cs := by
  unfold edgeOk at h
  rw [Bool.and_eq_true] at h
  unfold trimChars
  rw [dropWhile_of_headOk cs h.1, dropWhile_of_headOk cs.reverse h.2, List.reverse_reverse]

/-- Trimming a clean body followed by one newline removes exactly that
newline. -/
theorem trimChars_append_newline (X : List Char) (hne : X ≠ [])
    (hh : headOkB X = true) (hl : lastOkB X = true) :
    trimChars (X ++ ['\n']) = X := by
  unfold trimChars
  have h1 : (X ++ ['\n']).dropWhile isJsWhitespace = X ++ ['\n'] := by
    apply dropWhile_of_headOk
    rw [headOkB_append X ['\n'] hne]
    exact hh
  rw [h1, List.reverse_append]
  have h2 : ((['\n'] : List Char).reverse ++ X.reverse) = '\n' :: X.reverse := rfl
  rw [h2]
  have h3 : ('\n' :: X.reverse).dropWhile isJsWhitespace =
      X.reverse.dropWhile isJsWhitespace := by
    simp [List.dropWhile_cons, isJsWhitespace]
  rw [h3, dropWhile_of_headOk X.reverse hl, List.reverse_reverse]

/-- The raw script output is the newline join of the lines followed by one
trailing newline, when there is at least one line. -/
theorem foldrNL_eq (ls : List (List Char)) (h : ls ≠ []) :
    ls.foldr (fun l acc => l ++ '\n' :: acc) [] = joinLinesNL ls ++ ['\n'] := by
  induction ls with
  | nil => exact absurd rfl h
  | cons l ls ih =>
      cases ls with
      | nil => simp [joinLinesNL]
      | cons l2 ls2 =>
          rw [List.foldr_cons, ih (by simp)]
          show l ++ '\n' :: (joinLinesNL (l2 :: ls2) ++ ['\n']) =
            (l ++ '\n' :: joinLinesNL (l2 :: ls2)) ++ ['\n']
          simp [List.append_assoc]

/-- The newline join of nonempty lines is nonempty. -/
theorem joinLinesNL_ne_nil (ls : List (List Char)) (h : ls ≠ [])
    (hall : ∀ l ∈ ls, l ≠ []) : joinLinesNL ls ≠ [] := by
  cases ls with
  | nil => exact absurd rfl h
  | cons l ls =>
      cases ls with
      | nil => exact hall l (List.mem_cons_self l _)
      | cons l2 ls2 =>
          show l ++ '\n' :: joinLinesNL (l2 :: ls2) ≠ []
          simp

/-- The newline join starts like its first line. -/
theorem headOkB_joinLinesNL (ls : List (List Char)) (h : ls ≠ [])
    (hall : ∀ l ∈ ls, l ≠ [] ∧ headOkB l = true) :
    headOkB (joinLinesNL ls) = true := by
  cases ls with
  | nil => exact absurd rfl h
  | cons l ls =>
      cases ls with
      | nil => exact (hall l (List.mem_cons_self l _)).2
      | cons l2 ls2 =>
          show headOkB (l ++ '\n' :: joinLinesNL (l2 :: ls2)) = true
          rw [headOkB_append l _ (hall l (List.mem_cons_self l _)).1]
          exact (hall l (List.mem_cons_self l _)).2

/-- The newline join ends like its last line. -/
theorem lastOkB_joinLinesNL (ls : List (List Char)) (h : ls ≠ [])
    (hall : ∀ l ∈ ls, l ≠ [] ∧ lastOkB l = true) :
    lastOkB (joinLinesNL ls) = true := by
  induction ls with
  | nil => exact absurd rfl h
  | cons l ls ih =>
      cases ls with
      | nil => exact (hall l (List.mem_cons_self l _)).2
      | cons l2 ls2 =>
          show lastOkB (l ++ '\n' :: joinLinesNL (l2 :: ls2)) = true
          have hj : joinLinesNL (l2 :: ls2) ≠ [] :=
            joinLinesNL_ne_nil _ (by simp) (fun x hx => (hall x (List.mem_cons_of_mem l hx)).1)
          rw [lastOkB_append l _ (by simp)]
          have : ('\n' :: joinLinesNL (l2 :: ls2) : List Char) =
              ['\n'] ++ joinLinesNL (l2 :: ls2) := rfl
          rw [this, lastOkB_append _ _ hj]
          exact ih (by simp) (fun x hx => hall x (List.mem_cons_of_mem l hx))

/-- Splitting the newline join of newline-free lines recovers the lines. -/
theorem splitChar_joinLinesNL (ls : List (List Char)) (h : ls ≠ [])
    (hall : ∀ l ∈ ls, '\n' ∉ l) :
    splitChar '\n' (joinLinesNL ls) = ls := by
  induction ls with
  | nil => exact absurd rfl h
  | cons l ls ih =>
      cases ls with
      | nil =>
          show splitChar '\n' l = [l]
          exact splitChar_no_sep '\n' l (hall l (List.mem_cons_self l _))
      | cons l2 ls2 =>
          show splitChar '\n' (l ++ '\n' :: joinLinesNL (l2 :: ls2)) = l :: l2 :: ls2
          rw [splitChar_append '\n' l _ (hall l (List.mem_cons_self l _))]
          rw [ih (by simp) (fun x hx => hall x (List.mem_cons_of_mem l hx))]

/-- A snapshot line is never the empty list. -/
theorem snapshotLine_ne_nil (n b t : String) : snapshotLine n b t ≠ [] := by
  unfold snapshotLine
  cases hm : n.data with
  | nil => simp
  | cons c l2 => simp

/-- A snapshot line starts like the process name, or with a pipe. -/
theorem headOkB_snapshotLine (n b t : String) (hn : headOkB n.data = true) :
    headOkB (snapshotLine n b t) = true := by
  unfold snapshotLine
  cases hm : n.data with
  | nil =>
      rw [List.nil_append]
      show (!isJsWhitespace '|') = true
      decide
  | cons c l2 =>
      show (!isJsWhitespace c) = true
      rw [hm] at hn
      exact hn

/-- A snapshot line ends like the bundle identifier, or with a pipe. -/
theorem lastOkB_snapshotLine (n b t : String) (hb : lastOkB b.data = true) :
    lastOkB (snapshotLine n b t) = true := by
  have hline : snapshotLine n b t =
      (n.data ++ ['|', '|', '|'] ++ t.data ++ ['|', '|']) ++ '|' :: b.data := by
    simp [snapshotLine]
  rw [hline, lastOkB_append _ _ (by simp)]
  cases hm : b.data with
  | nil => decide
  | cons c l2 =>
      have : ('|' :: (c :: l2) : List Char) = ['|'] ++ c :: l2 := rfl
      rw [this, lastOkB_append _ _ (by simp)]
      rw [hm] at hb
      exact hb

/-- A snapshot line over newline-free fields contains no newline. -/
theorem no_newline_snapshotLine (n b t : String)
    (hn : '\n' ∉ n.data) (hb : '\n' ∉ b.data) (ht : '\n' ∉ t.data) :
    '\n' ∉ snapshotLine n b t := by
  intro hmem
  simp only [snapshotLine, List.mem_append, List.mem_cons] at hmem
  rcases hmem with h | h | h | h | h | h | h | h | h
  · exact hn h
  · exact absurd h (by decide)
  · exact absurd h (by decide)
  · exact absurd h (by decide)
  · exact ht h
  · exact absurd h (by decide)
  · exact absurd h (by decide)
  · exact absurd h (by decide)
  · exact hb h

/-- Every member of the emitted lines comes from an eligible process and one
of its unminimized, non-empty-titled windows. -/
theorem mem_snapshotLines (procs : List Proc) (l : List Char)
    (h : l ∈ snapshotLines procs) :
    ∃ p ∈ procs, ∃ w ∈ p.windows, (w.title == "") = false ∧
      l = snapshotLine p.name p.bundleId w.title := by
  unfold snapshotLines at h
  rw [List.mem_flatMap] at h
  obtain ⟨p, hp, hl⟩ := h
  rw [List.mem_map] at hl
  obtain ⟨w, hw, heq⟩ := hl
  have hp2 := List.mem_filter.mp hp
  have hw2 := List.mem_filter.mp hw
  refine ⟨p, hp2.1, w, hw2.1, ?_, heq.symm⟩
  have := hw2.2
  simp only [Bool.and_eq_true, Bool.not_eq_true'] at this
  exact this.1

/-- Parsing a snapshot line over pipe-free, edge-clean fields recovers the
fields, except that a Raycast bundle is skipped. -/
theorem parseSnapshotLine_eq (n b t : String)
    (hn : '|' ∉ n.data) (ht : '|' ∉ t.data) (hb : '|' ∉ b.data)
    (hne : edgeOk n.data = true) (hte : edgeOk t.data = true) (hbe : edgeOk b.data = true) :
    parseSnapshotLine (snapshotLine n b t) =
      if b == "com.raycast.macos" then none
      else some { appName := n, windowTitle := t
                  windowId := n ++ "::" ++ t, bundleId := some b } := by
  have hmk : ∀ s : String, String.mk s.data = s := fun s => rfl
  unfold parseSnapshotLine snapshotLine
  rw [splitPipes_append _ _ hn, splitPipes_append _ _ ht, splitPipes_no_pipe _ hb]
  simp only [trimChars_of_edgeOk _ hne, trimChars_of_edgeOk _ hte,
    trimChars_of_edgeOk _ hbe, hmk]

/-- C9 counterexample: the snapshot can contain a window with an empty
title. The script filter only rejects titles that are exactly empty, while
the TypeScript side trims each field afterwards, so a whitespace-only title
yields an empty windowTitle in the returned snapshot. -/
theorem snapshot_empty_title_possible :
    ¬ (∀ (fault : Bool) (procs : List Proc), ∀ wi ∈ getOpenWindows fault procs,
        wi.appName ≠ "" ∧ wi.windowTitle ≠ "") := by
  intro h
  have h2 := h false pBlankTitle
    { appName := "App", windowTitle := "", windowId := "App::", bundleId := some "b" }
    (by decide)
  exact h2.2 rfl

/-- C9 amended: provided every process name, bundle identifier and window
title is free of newlines and pipes and carries no surrounding whitespace,
and every process name is non-empty, every window of the snapshot has a
non-empty application name and a non-empty title; a window with an empty raw
title is never captured. -/
theorem snapshot_fields_nonempty (fault : Bool) (procs : List Proc)
    (hclean : ∀ p ∈ procs, cleanField p.name ∧ cleanField p.bundleId ∧ p.name ≠ "" ∧
      ∀ w ∈ p.windows, cleanField w.title) :
    ∀ wi ∈ getOpenWindows fault procs, wi.appName ≠ "" ∧ wi.windowTitle ≠ "" := by
  intro wi hwi
  cases fault with
  | true => simp [getOpenWindows] at hwi
  | false =>
      rw [getOpenWindows] at hwi
      simp only [Bool.false_eq_true, if_false] at hwi
      cases hls : snapshotLines procs with
      | nil =>
          rw [snapshotScriptOutput, hls] at hwi
          simp [parseSnapshot, splitChar, trimChars] at hwi
      | cons l0 ls0 =>
          have hlsne : snapshotLines procs ≠ [] := by rw [hls]; simp
          have hfacts : ∀ l ∈ snapshotLines procs,
              '\n' ∉ l ∧ l ≠ [] ∧ headOkB l = true ∧ lastOkB l = true := by
            intro l hl
            obtain ⟨p, hp, w, hw, hwt, rfl⟩ := mem_snapshotLines procs l hl
            obtain ⟨hcn, hcb, hnne, hwins⟩ := hclean p hp
            obtain ⟨hct⟩ := hwins w hw
            have hct2 := hwins w hw
            refine ⟨?_, snapshotLine_ne_nil _ _ _, ?_, ?_⟩
            · exact no_newline_snapshotLine _ _ _ hcn.1 hcb.1 hct2.1
            · apply headOkB_snapshotLine
              have := hcn.2.2
              rw [edgeOk, Bool.and_eq_true] at this
              exact this.1
            · apply lastOkB_snapshotLine
              have := hcb.2.2
              rw [edgeOk, Bool.and_eq_true] at this
              exact this.2
          have h1 : snapshotScriptOutput procs =
              joinLinesNL (snapshotLines procs) ++ ['\n'] :=
            foldrNL_eq _ hlsne
          have h2 : trimChars (snapshotScriptOutput procs) =
              joinLinesNL (snapshotLines procs) := by
            rw [h1]
            exact trimChars_append_newline _
              (joinLinesNL_ne_nil _ hlsne (fun l hl => (hfacts l hl).2.1))
              (headOkB_joinLinesNL _ hlsne (fun l hl => ⟨(hfacts l hl).2.1, (hfacts l hl).2.2.1⟩))
              (lastOkB_joinLinesNL _ hlsne (fun l hl => ⟨(hfacts l hl).2.1, (hfacts l hl).2.2.2⟩))
          have h3 : splitChar '\n' (trimChars (snapshotScriptOutput procs)) =
              snapshotLines procs := by
            rw [h2]
            exact splitChar_joinLinesNL _ hlsne (fun l hl => (hfacts l hl).1)
          have h4 : (snapshotLines procs).filter (fun l => !l.isEmpty) =
              snapshotLines procs := by
            rw [List.filter_eq_self]
            intro l hl
            have := (hfacts l hl).2.1
            cases l with
            | nil => exact absurd rfl this
            | cons c cs => rfl
          rw [parseSnapshot, h3, h4] at hwi
          rw [List.mem_filterMap] at hwi
          obtain ⟨l, hl, hparse⟩ := hwi
          obtain ⟨p, hp, w, hw, hwt, rfl⟩ := mem_snapshotLines procs l hl
          obtain ⟨hcn, hcb, hnne, hwins⟩ := hclean p hp
          have hct := hwins w hw
          rw [parseSnapshotLine_eq p.name p.bundleId w.title
            hcn.2.1 hct.2.1 hcb.2.1 hcn.2.2 hct.2.2 hcb.2.2] at hparse
          cases hray : (p.bundleId == "com.raycast.macos") with
          | true => rw [hray] at hparse; simp at hparse
          | false =>
              rw [hray] at hparse
              simp only [Bool.false_eq_true, if_false, Option.some.injEq] at hparse
              rw [← hparse]
              refine ⟨hnne, ?_⟩
              intro habs
              have habs2 : w.title = "" := habs
              rw [habs2] at hwt
              simp at hwt

/-- Witness for the amended C9 at a concrete clean state. -/
theorem snapshot_fields_nonempty_witness :
    (∀ p ∈ pClean, cleanField p.name ∧ cleanField p.bundleId ∧ p.name ≠ "" ∧
      ∀ w ∈ p.windows, cleanField w.title) ∧
    (∀ wi ∈ getOpenWindows false pClean, wi.appName ≠ "" ∧ wi.windowTitle ≠ "") :=
  ⟨by decide, snapshot_fields_nonempty false pClean (by decide)⟩

/-! ## Window-server list lemmas -/

/-- Specification of extractFirstWin in the found case. -/
theorem extractFirstWin_some (t : String) :
    ∀ {ws : List Win} {w : Win} {rest : List Win}, extractFirstWin t ws = some (w, rest) →
      ∃ pre post, ws = pre ++ w :: post ∧ rest = pre ++ post ∧ w.title = t ∧
        ∀ x ∈ pre, x.title ≠ t := by
  intro ws
  induction ws with
  | nil => intro w rest h; simp [extractFirstWin] at h
  | cons w0 ws ih =>
      intro w rest h
      rw [extractFirstWin] at h
      cases hbt : (w0.title == t) with
      | true =>
          rw [hbt] at h; rw [if_pos rfl] at h
          obtain ⟨rfl, rfl⟩ : w0 = w ∧ ws = rest := by
            simpa using h
          exact ⟨[], ws, rfl, rfl, by simpa using hbt, by simp⟩
      | false =>
          rw [hbt] at h; simp only [Bool.false_eq_true, if_false] at h
          cases hrec : extractFirstWin t ws with
          | none => rw [hrec] at h; simp at h
          | some pr =>
              rw [hrec] at h
              obtain ⟨x, r2⟩ := pr
              simp only [Option.some.injEq, Prod.mk.injEq] at h
              obtain ⟨rfl, rfl⟩ := h
              obtain ⟨pre, post, hws, hrest, htitle, hpre⟩ := ih hrec
              refine ⟨w0 :: pre, post, by rw [hws]; rfl, by rw [hrest]; rfl, htitle, ?_⟩
              intro x hx
              rcases List.mem_cons.mp hx with rfl | hx2
              · simpa using hbt
              · exact hpre x hx2

/-- Specification of extractFirstWin in the missing case. -/
theorem extractFirstWin_none (t : String) :
    ∀ {ws : List Win}, extractFirstWin t ws = none ↔ ∀ w ∈ ws, w.title ≠ t := by
  intro ws
  induction ws with
  | nil => simp [extractFirstWin]
  | cons w0 ws ih =>
      rw [extractFirstWin]
      cases hbt : (w0.title == t) with
      | true =>
          rw [if_pos rfl]
          constructor
          · intro h; exact absurd h (by simp)
          · intro h
            exact absurd (by simpa using hbt) (h w0 (List.mem_cons_self w0 ws))
      | false =>
          simp only [Bool.false_eq_true, if_false]
          cases hrec : extractFirstWin t ws with
          | none =>
              simp only [true_iff]
              intro w hw
              rcases List.mem_cons.mp hw with rfl | hw2
              · simpa using hbt
              · exact (ih.mp hrec) w hw2
          | some pr =>
              obtain ⟨x, r2⟩ := pr
              simp only [reduceCtorEq, false_iff, not_forall]
              have hx := extractFirstWin_some t hrec
              obtain ⟨pre, post, hws, _, htitle, _⟩ := hx
              refine ⟨x, ?_, by simp [htitle]⟩
              rw [hws]
              exact List.mem_cons_of_mem w0 (by simp)

/-- A window list has a window with the given title exactly when
extractFirstWin succeeds on it. -/
theorem any_title_eq_extract (t : String) (ws : List Win) :
    (ws.any (fun w => w.title == t)) = false ↔ extractFirstWin t ws = none := by
  rw [List.any_eq_false]
  rw [extractFirstWin_none]
  constructor
  · intro h w hw; simpa using h w hw
  · intro h w hw; simpa using h w hw

/-- Specification of findFirstProc in the found case. -/
theorem findFirstProc_some (n : String) :
    ∀ {ps : List Proc} {p : Proc}, findFirstProc n ps = some p →
      p.name = n ∧ ∃ pre post, ps = pre ++ p :: post ∧ ∀ q ∈ pre, q.name ≠ n := by
  intro ps
  induction ps with
  | nil => intro p h; simp [findFirstProc] at h
  | cons p0 ps ih =>
      intro p h
      rw [findFirstProc] at h
      cases hbt : (p0.name == n) with
      | true =>
          rw [hbt] at h; rw [if_pos rfl] at h
          obtain rfl : p0 = p := by simpa using h
          exact ⟨by simpa using hbt, [], ps, rfl, by simp⟩
      | false =>
          rw [hbt] at h; simp only [Bool.false_eq_true, if_false] at h
          obtain ⟨hname, pre, post, hps, hpre⟩ := ih h
          refine ⟨hname, p0 :: pre, post, by rw [hps]; rfl, ?_⟩
          intro q hq
          rcases List.mem_cons.mp hq with rfl | hq2
          · simpa using hbt
          · exact hpre q hq2

/-- Specification of findFirstProc in the missing case. -/
theorem findFirstProc_none (n : String) :
    ∀ {ps : List Proc}, findFirstProc n ps = none ↔ ∀ p ∈ ps, p.name ≠ n := by
  intro ps
  induction ps with
  | nil => simp [findFirstProc]
  | cons p0 ps ih =>
      rw [findFirstProc]
      cases hbt : (p0.name == n) with
      | true =>
          rw [if_pos rfl]
          constructor
          · intro h; exact absurd h (by simp)
          · intro h
            exact absurd (by simpa using hbt) (h p0 (List.mem_cons_self p0 ps))
      | false =>
          simp only [Bool.false_eq_true, if_false]
          rw [ih]
          constructor
          · intro h p hp
            rcases List.mem_cons.mp hp with rfl | hp2
            · simpa using hbt
            · exact h p hp2
          · intro h p hp
            exact h p (List.mem_cons_of_mem p0 hp)

/-- A found process is a member of the list. -/
theorem findFirstProc_mem {n : String} {ps : List Proc} {p : Proc}
    (h : findFirstProc n ps = some p) : p ∈ ps := by
  obtain ⟨_, pre, post, hps, _⟩ := findFirstProc_some n h
  rw [hps]
  exact List.mem_append_right pre (List.mem_cons_self p post)

/-- Finding skips a prefix without the name. -/
theorem findFirstProc_append_ne (n : String) :
    ∀ (pre rest : List Proc), (∀ q ∈ pre, q.name ≠ n) →
      findFirstProc n (pre ++ rest) = findFirstProc n rest := by
  intro pre
  induction pre with
  | nil => intro rest _; rfl
  | cons q pre ih =>
      intro rest h
      rw [List.cons_append, findFirstProc]
      have : (q.name == n) = false := by
        simp only [beq_eq_false_iff_ne]
        exact h q (List.mem_cons_self q pre)
      simp only [this, Bool.false_eq_true, if_false]
      exact ih rest (fun x hx => h x (List.mem_cons_of_mem q hx))

/-- Updating where finding succeeds rewrites exactly the found process. -/
theorem updateFirstProc_of_find (n : String) (f : Proc → Proc) :
    ∀ {ps : List Proc} {p : Proc}, findFirstProc n ps = some p →
      ∃ pre post, ps = pre ++ p :: post ∧
        updateFirstProc n f ps = pre ++ f p :: post ∧ ∀ q ∈ pre, q.name ≠ n := by
  intro ps
  induction ps with
  | nil => intro p h; simp [findFirstProc] at h
  | cons p0 ps ih =>
      intro p h
      rw [findFirstProc] at h
      rw [updateFirstProc]
      cases hbt : (p0.name == n) with
      | true =>
          rw [hbt] at h; rw [if_pos rfl] at h
          obtain rfl : p0 = p := by simpa using h
          rw [if_pos rfl]
          exact ⟨[], ps, rfl, rfl, by simp⟩
      | false =>
          rw [hbt] at h; simp only [Bool.false_eq_true, if_false] at h
          simp only [Bool.false_eq_true, if_false]
          obtain ⟨pre, post, hps, hupd, hpre⟩ := ih h
          refine ⟨p0 :: pre, post, by rw [hps]; rfl, by rw [hupd]; rfl, ?_⟩
          intro q hq
          rcases List.mem_cons.mp hq with rfl | hq2
          · simpa using hbt
          · exact hpre q hq2

/-- Updating where finding fails is the identity. -/
theorem updateFirstProc_of_none (n : String) (f : Proc → Proc) :
    ∀ {ps : List Proc}, findFirstProc n ps = none → updateFirstProc n f ps = ps := by
  intro ps
  induction ps with
  | nil => intro _; rfl
  | cons p0 ps ih =>
      intro h
      rw [findFirstProc] at h
      rw [updateFirstProc]
      cases hbt : (p0.name == n) with
      | true => rw [hbt] at h; rw [if_pos rfl] at h; simp at h
      | false =>
          rw [hbt] at h; simp only [Bool.false_eq_true, if_false] at h
          simp only [Bool.false_eq_true, if_false]
          rw [ih h]

/-- Updating with a function that fixes every process of the name is the
identity. -/
theorem updateFirstProc_congr (n : String) (f : Proc → Proc) :
    ∀ (ps : List Proc), (∀ p ∈ ps, p.name = n → f p = p) → updateFirstProc n f ps = ps := by
  intro ps
  induction ps with
  | nil => intro _; rfl
  | cons p0 ps ih =>
      intro h
      rw [updateFirstProc]
      cases hbt : (p0.name == n) with
      | true =>
          rw [if_pos rfl]
          rw [h p0 (List.mem_cons_self p0 ps) (by simpa using hbt)]
      | false =>
          simp only [Bool.false_eq_true, if_false]
          rw [ih (fun p hp => h p (List.mem_cons_of_mem p0 hp))]

/-- Finding one name is unchanged by updating another with a name-preserving
function. -/
theorem findFirstProc_updateFirstProc_ne (n m : String) (f : Proc → Proc)
    (hf : ∀ p, (f p).name = p.name) (hne : n ≠ m) :
    ∀ (ps : List Proc), findFirstProc n (updateFirstProc m f ps) = findFirstProc n ps := by
  intro ps
  induction ps with
  | nil => rfl
  | cons p0 ps ih =>
      rw [updateFirstProc]
      cases hbt : (p0.name == m) with
      | true =>
          rw [if_pos rfl, findFirstProc, findFirstProc]
          have hm : p0.name = m := by simpa using hbt
          have h1 : ((f p0).name == n) = false := by
            simp only [beq_eq_false_iff_ne, hf p0, hm]
            exact fun hc => hne hc.symm
          have h2 : (p0.name == n) = false := by
            simp only [beq_eq_false_iff_ne, hm]
            exact fun hc => hne hc.symm
          simp only [h1, h2, Bool.false_eq_true, if_false]
      | false =>
          simp only [Bool.false_eq_true, if_false]
          rw [findFirstProc, findFirstProc, ih]

/-- Finding the updated name returns the updated process, for a
name-preserving update. -/
theorem findFirstProc_updateFirstProc_eq (n : String) (f : Proc → Proc)
    (hf : ∀ p, (f p).name = p.name) {ps : List Proc} {p : Proc}
    (h : findFirstProc n ps = some p) :
    findFirstProc n (updateFirstProc n f ps) = some (f p) := by
  obtain ⟨pre, post, hps, hupd, hpre⟩ := updateFirstProc_of_find n f h
  rw [hupd, findFirstProc_append_ne n pre _ hpre, findFirstProc]
  have : ((f p).name == n) = true := by
    rw [hf p]
    simp [(findFirstProc_some n h).1]
  rw [this, if_pos rfl]

/-- A window record with its minimized flag already clear is unchanged by
clearing it. -/
theorem win_unmin_eta (w : Win) (h : w.minimized = false) :
    ({ w with minimized := false } : Win) = w := by
  cases w with
  | mk t m => cases h; rfl

/-- A process record with its visible flag already set is unchanged by
setting it. -/
theorem proc_visible_eta (p : Proc) (h : p.visible = true) :
    ({ p with visible := true } : Proc) = p := by
  cases p with
  | mk n b v bg ws => cases h; rfl

/-- Composition of pointwise-related lists along a transitive relation. -/
theorem forall₂_trans {α : Type} {R : α → α → Prop}
    (hR : ∀ a b c, R a b → R b c → R a c) :
    ∀ {l1 l2 l3 : List α}, List.Forall₂ R l1 l2 → List.Forall₂ R l2 l3 →
      List.Forall₂ R l1 l3 := by
  intro l1 l2 l3 h12 h23
  induction h12 generalizing l3 with
  | nil => cases h23; exact List.Forall₂.nil
  | cons hab h12 ih =>
      cases h23 with
      | cons hbc h23 => exact List.Forall₂.cons (hR _ _ _ hab hbc) (ih h23)

/-- A member of the left list of a pointwise relation has a related member
on the right. -/
theorem forall₂_mem_left {α : Type} {R : α → α → Prop} :
    ∀ {l1 l2 : List α}, List.Forall₂ R l1 l2 → ∀ {a}, a ∈ l1 → ∃ b ∈ l2, R a b := by
  intro l1 l2 h
  induction h with
  | nil => intro a ha; simp at ha
  | cons hab h ih =>
      intro a ha
      rcases List.mem_cons.mp ha with rfl | ha2
      · exact ⟨_, List.mem_cons_self _ _, hab⟩
      · obtain ⟨b, hb, hR⟩ := ih ha2
        exact ⟨b, List.mem_cons_of_mem _ hb, hR⟩

/-- The process-similarity relation is reflexive. -/
theorem procSim_refl (p : Proc) : procSim p p :=
  ⟨rfl, rfl, rfl, rfl, List.Perm.refl _⟩

/-- The process-similarity relation is transitive. -/
theorem procSim_trans (p q r : Proc) (h1 : procSim p q) (h2 : procSim q r) : procSim p r :=
  ⟨h1.1.trans h2.1, h1.2.1.trans h2.2.1, h1.2.2.1.trans h2.2.2.1,
    h1.2.2.2.1.trans h2.2.2.2.1, h1.2.2.2.2.trans h2.2.2.2.2⟩

/-- Two Booleans whose truth is equivalent are equal. -/
theorem bool_eq_of_iff {a b : Bool} (h : a = true ↔ b = true) : a = b := by
  cases a <;> cases b <;> simp_all

/-! ## Similarity and step lemmas -/

/-- Finding transported along a pointwise name-preserving relation. -/
theorem findFirstProc_forall₂ {R : Proc → Proc → Prop}
    (hname : ∀ p q, R p q → p.name = q.name) (n : String) :
    ∀ {ps qs : List Proc}, List.Forall₂ R ps qs →
      (findFirstProc n ps = none ∧ findFirstProc n qs = none) ∨
        (∃ p q, findFirstProc n ps = some p ∧ findFirstProc n qs = some q ∧ R p q) := by
  intro ps qs h
  induction h with
  | nil => left; exact ⟨rfl, rfl⟩
  | @cons a b l1 l2 hab hrest ih =>
      rw [findFirstProc, findFirstProc]
      cases hbt : (a.name == n) with
      | true =>
          have hbn : (b.name == n) = true := by
            rw [beq_iff_eq] at hbt ⊢
            rw [← hname a b hab]
            exact hbt
          rw [if_pos rfl, hbn, if_pos rfl]
          right
          exact ⟨a, b, rfl, rfl, hab⟩
      | false =>
          have hbn : (b.name == n) = false := by
            rw [beq_eq_false_iff_ne] at hbt ⊢
            rw [← hname a b hab]
            exact hbt
          simp only [Bool.false_eq_true, if_false]
          rw [hbn]
          simp only [Bool.false_eq_true, if_false]
          exact ih

/-- Searching a title is invariant under permutation of the title lists. -/
theorem any_title_perm {ws1 ws2 : List Win}
    (h : List.Perm (ws1.map Win.title) (ws2.map Win.title)) (t : String) :
    ws1.any (fun w => w.title == t) = ws2.any (fun w => w.title == t) := by
  apply bool_eq_of_iff
  rw [List.any_eq_true, List.any_eq_true]
  constructor
  · rintro ⟨w, hw, hww⟩
    have hm : w.title ∈ ws2.map Win.title := h.mem_iff.mp (List.mem_map_of_mem Win.title hw)
    obtain ⟨w2, hw2, ht2⟩ := List.mem_map.mp hm
    refine ⟨w2, hw2, ?_⟩
    rw [show Win.title w2 = w2.title from rfl] at ht2
    rw [ht2]
    exact hww
  · rintro ⟨w, hw, hww⟩
    have hm : w.title ∈ ws1.map Win.title := h.mem_iff.mpr (List.mem_map_of_mem Win.title hw)
    obtain ⟨w2, hw2, ht2⟩ := List.mem_map.mp hm
    refine ⟨w2, hw2, ?_⟩
    rw [show Win.title w2 = w2.title from rfl] at ht2
    rw [ht2]
    exact hww

/-- Whether a reference misses is invariant under process similarity. -/
theorem missRef_congr {ps qs : List Proc} (h : List.Forall₂ procSim ps qs) (r : WindowInfo) :
    missRef ps r = missRef qs r := by
  unfold missRef
  rcases findFirstProc_forall₂ (fun p q hpq => hpq.1) r.appName h with
    ⟨h1, h2⟩ | ⟨p, q, h1, h2, hpq⟩
  · rw [h1, h2]
  · rw [h1, h2]
    show (!(p.windows.any fun w => w.title == r.windowTitle)) =
      (!(q.windows.any fun w => w.title == r.windowTitle))
    rw [any_title_perm hpq.2.2.2.2 r.windowTitle]

/-- A faulted restore step is inert. -/
theorem restoreStep_fault (o : Oracle) (i : Nat) (r : WindowInfo) (s : SystemState)
    (h : o.winFault i = true) : restoreStep o i r s = (s, false) := by
  simp only [restoreStep, h, if_pos rfl, if_true]

/-- A restore step over a missing process is inert. -/
theorem restoreStep_noproc (o : Oracle) (i : Nat) (r : WindowInfo) (s : SystemState)
    (h : o.winFault i = false) (hf : findFirstProc r.appName s.procs = none) :
    restoreStep o i r s = (s, false) := by
  simp only [restoreStep, h, Bool.false_eq_true, if_false, hf]

/-- A restore step whose title search fails only raises the application. -/
theorem restoreStep_notfound (o : Oracle) (i : Nat) (r : WindowInfo) (s : SystemState)
    (p : Proc) (h : o.winFault i = false) (hf : findFirstProc r.appName s.procs = some p)
    (hx : extractFirstWin r.windowTitle p.windows = none) :
    restoreStep o i r s = ({ s with frontApp := some r.appName }, false) := by
  simp only [restoreStep, h, Bool.false_eq_true, if_false, hf, hx]

/-- A restore step that finds its window raises and unminimizes it. -/
theorem restoreStep_found (o : Oracle) (i : Nat) (r : WindowInfo) (s : SystemState)
    (p : Proc) (w : Win) (rest : List Win) (h : o.winFault i = false)
    (hf : findFirstProc r.appName s.procs = some p)
    (hx : extractFirstWin r.windowTitle p.windows = some (w, rest)) :
    restoreStep o i r s =
      ({ procs := updateFirstProc r.appName (fun q => { q with windows := raiseWin w rest }) s.procs, frontApp := some r.appName }, true) := by
  simp only [restoreStep, h, Bool.false_eq_true, if_false, hf, hx]

/-- With no fault, the found flag of a step is the complement of missing. -/
theorem restoreStep_snd_eq (o : Oracle) (i : Nat) (r : WindowInfo) (s : SystemState)
    (h : o.winFault i = false) :
    (restoreStep o i r s).2 = !missRef s.procs r := by
  unfold missRef
  cases hf : findFirstProc r.appName s.procs with
  | none => rw [restoreStep_noproc o i r s h hf]; rfl
  | some p =>
      cases hx : extractFirstWin r.windowTitle p.windows with
      | none =>
          rw [restoreStep_notfound o i r s p h hf hx]
          show false = !!(p.windows.any fun w => w.title == r.windowTitle)
          have ha : (p.windows.any fun w => w.title == r.windowTitle) = false :=
            (any_title_eq_extract _ _).mpr hx
          rw [ha]
          rfl
      | some pr =>
          obtain ⟨w, rest⟩ := pr
          rw [restoreStep_found o i r s p w rest h hf hx]
          show true = !!(p.windows.any fun w => w.title == r.windowTitle)
          have ha : (p.windows.any fun w => w.title == r.windowTitle) = true := by
            rw [List.any_eq_true]
            obtain ⟨pre, post, hws, _, ht, _⟩ := extractFirstWin_some _ hx
            refine ⟨w, ?_, by simp [ht]⟩
            rw [hws]
            exact List.mem_append_right pre (List.mem_cons_self w post)
          rw [ha]
          rfl

/-- The step with found flag true is exactly the raising step. -/
theorem restoreStep_true_inv (o : Oracle) (i : Nat) (r : WindowInfo) (s : SystemState)
    (h : (restoreStep o i r s).2 = true) :
    ∃ p w rest, o.winFault i = false ∧ findFirstProc r.appName s.procs = some p ∧
      extractFirstWin r.windowTitle p.windows = some (w, rest) ∧
      restoreStep o i r s =
        ({ procs := updateFirstProc r.appName (fun q => { q with windows := raiseWin w rest }) s.procs, frontApp := some r.appName }, true) := by
  cases hw : o.winFault i with
  | true => rw [restoreStep_fault o i r s hw] at h; simp at h
  | false =>
      cases hf : findFirstProc r.appName s.procs with
      | none => rw [restoreStep_noproc o i r s hw hf] at h; simp at h
      | some p =>
          cases hx : extractFirstWin r.windowTitle p.windows with
          | none => rw [restoreStep_notfound o i r s p hw hf hx] at h; simp at h
          | some pr =>
              obtain ⟨w, rest⟩ := pr
              exact ⟨p, w, rest, rfl, rfl, hx, restoreStep_found o i r s p w rest hw hf hx⟩

/-- The raised window list carries the same titles up to permutation. -/
theorem raiseWin_titles_perm {t : String} {ws : List Win} {w : Win} {rest : List Win}
    (hx : extractFirstWin t ws = some (w, rest)) :
    List.Perm ((raiseWin w rest).map Win.title) (ws.map Win.title) := by
  obtain ⟨pre, post, hws, hrest, _, _⟩ := extractFirstWin_some t hx
  rw [hws, hrest]
  unfold raiseWin
  rw [List.map_cons, List.map_append, List.map_append, List.map_cons]
  have hsame : Win.title { w with minimized := false } = Win.title w := rfl
  rw [hsame]
  exact (List.perm_middle).symm

/-- One restore step leaves every process similar. -/
theorem restoreStep_sim (o : Oracle) (i : Nat) (r : WindowInfo) (s : SystemState) :
    List.Forall₂ procSim (restoreStep o i r s).1.procs s.procs := by
  have hrefl : List.Forall₂ procSim s.procs s.procs :=
    List.forall₂_same.mpr (fun x _ => procSim_refl x)
  cases hw : o.winFault i with
  | true => rw [restoreStep_fault o i r s hw]; exact hrefl
  | false =>
      cases hf : findFirstProc r.appName s.procs with
      | none => rw [restoreStep_noproc o i r s hw hf]; exact hrefl
      | some p =>
          cases hx : extractFirstWin r.windowTitle p.windows with
          | none => rw [restoreStep_notfound o i r s p hw hf hx]; exact hrefl
          | some pr =>
              obtain ⟨w, rest⟩ := pr
              rw [restoreStep_found o i r s p w rest hw hf hx]
              obtain ⟨pre, post, hps, hupd, hpre⟩ :=
                updateFirstProc_of_find r.appName
                  (fun q => { q with windows := raiseWin w rest }) hf
              show List.Forall₂ procSim
                (updateFirstProc r.appName
                  (fun q => { q with windows := raiseWin w rest }) s.procs) s.procs
              rw [hupd]
              conv_rhs => rw [hps]
              refine List.rel_append (List.forall₂_same.mpr (fun x _ => procSim_refl x)) ?_
              refine List.Forall₂.cons ?_ (List.forall₂_same.mpr (fun x _ => procSim_refl x))
              exact ⟨rfl, rfl, rfl, rfl, raiseWin_titles_perm hx⟩

/-- The restore loop leaves every process similar. -/
theorem restoreLoop_sim (o : Oracle) :
    ∀ (refs : List WindowInfo) (i : Nat) (s : SystemState),
      List.Forall₂ procSim (restoreLoop o refs i s).1.procs s.procs := by
  intro refs
  induction refs with
  | nil =>
      intro i s
      exact List.forall₂_same.mpr (fun x _ => procSim_refl x)
  | cons r rest ih =>
      intro i s
      have hstep := restoreStep_sim o i r s
      have hnext := ih (i + 1) (restoreStep o i r s).1
      simp only [restoreLoop]
      cases hb : (restoreStep o i r s).2 <;>
        simp only [hb, Bool.false_eq_true, if_false, if_true] <;>
        exact forall₂_trans procSim_trans hnext hstep

/-- With no per-window faults, the loop collects exactly the missing
references, decided against the state the loop started in. -/
theorem restoreLoop_notFound_eq (o : Oracle) (hwf : ∀ i, o.winFault i = false) :
    ∀ (refs : List WindowInfo) (i : Nat) (s : SystemState),
      (restoreLoop o refs i s).2.2 = refs.filter (fun r => missRef s.procs r) := by
  intro refs
  induction refs with
  | nil => intro i s; simp [restoreLoop]
  | cons r rest ih =>
      intro i s
      have hb := restoreStep_snd_eq o i r s (hwf i)
      have hnext := ih (i + 1) (restoreStep o i r s).1
      have hmiss : ∀ r2, missRef (restoreStep o i r s).1.procs r2 = missRef s.procs r2 :=
        fun r2 => missRef_congr (restoreStep_sim o i r s) r2
      have hfilter : (restoreLoop o rest (i + 1) (restoreStep o i r s).1).2.2 =
          rest.filter (fun r2 => missRef s.procs r2) := by
        rw [hnext]
        exact List.filter_congr (fun x _ => hmiss x)
      simp only [restoreLoop]
      rw [List.filter_cons]
      cases hm : missRef s.procs r with
      | true =>
          have hb2 : (restoreStep o i r s).2 = false := by rw [hb, hm]; rfl
          simp only [hb2, Bool.false_eq_true, if_false]
          rw [if_true, hfilter]
      | false =>
          have hb2 : (restoreStep o i r s).2 = true := by rw [hb, hm]; rfl
          simp only [hb2, if_true, Bool.false_eq_true, if_false]
          rw [hfilter]

/-! ## Keep-invariant and phase lemmas -/

/-- A restore step of a reference whose key is kept preserves the
keep-invariant: raising only ever unminimizes a kept window. -/
theorem keepInv_restoreStep (o : Oracle) (i : Nat) (r : WindowInfo) (s : SystemState)
    (keep : List String) (hkeep : keepKey r ∈ keep)
    (hinv : KeepInv keep s.procs) : KeepInv keep (restoreStep o i r s).1.procs := by
  cases hw : o.winFault i with
  | true => rw [restoreStep_fault o i r s hw]; exact hinv
  | false =>
      cases hf : findFirstProc r.appName s.procs with
      | none => rw [restoreStep_noproc o i r s hw hf]; exact hinv
      | some p =>
          cases hx : extractFirstWin r.windowTitle p.windows with
          | none => rw [restoreStep_notfound o i r s p hw hf hx]; exact hinv
          | some pr =>
              obtain ⟨w, rest⟩ := pr
              rw [restoreStep_found o i r s p w rest hw hf hx]
              obtain ⟨pre, post, hps, hupd, hpre⟩ :=
                updateFirstProc_of_find r.appName
                  (fun q => { q with windows := raiseWin w rest }) hf
              show KeepInv keep (updateFirstProc r.appName
                (fun q => { q with windows := raiseWin w rest }) s.procs)
              rw [hupd]
              intro p' hp' hbid hbg w' hw' hkey
              rcases List.mem_append.mp hp' with hp1 | hp2
              · exact hinv p' (by rw [hps]; exact List.mem_append_left _ hp1) hbid hbg w' hw' hkey
              · rcases List.mem_cons.mp hp2 with rfl | hp3
                · obtain ⟨pre2, post2, hws, hrest, ht, _⟩ := extractFirstWin_some _ hx
                  rcases List.mem_cons.mp hw' with rfl | hw2
                  · exfalso
                    apply hkey
                    have hpname : p.name = r.appName := (findFirstProc_some r.appName hf).1
                    show winKey p.name w.title ∈ keep
                    rw [hpname, ht]
                    exact hkeep
                  · have hpmem : p ∈ s.procs := by
                      rw [hps]
                      exact List.mem_append_right pre (List.mem_cons_self p post)
                    have hwmem : w' ∈ p.windows := by
                      rw [hrest] at hw2
                      rw [hws]
                      rcases List.mem_append.mp hw2 with h1 | h2
                      · exact List.mem_append_left _ h1
                      · exact List.mem_append_right _ (List.mem_cons_of_mem w h2)
                    exact hinv p hpmem hbid hbg w' hwmem hkey
                · exact hinv p' (by rw [hps]; exact List.mem_append_right pre (List.mem_cons_of_mem p hp3)) hbid hbg w' hw' hkey

/-- The restore loop preserves the keep-invariant when every reference key is
kept. -/
theorem keepInv_restoreLoop (o : Oracle) (keep : List String) :
    ∀ (refs : List WindowInfo) (i : Nat) (s : SystemState),
      (∀ r ∈ refs, keepKey r ∈ keep) → KeepInv keep s.procs →
      KeepInv keep (restoreLoop o refs i s).1.procs := by
  intro refs
  induction refs with
  | nil => intro i s _ hinv; exact hinv
  | cons r rest ih =>
      intro i s hkeep hinv
      have hstep := keepInv_restoreStep o i r s keep (hkeep r (List.mem_cons_self r rest)) hinv
      have hnext := ih (i + 1) (restoreStep o i r s).1
        (fun x hx => hkeep x (List.mem_cons_of_mem r hx)) hstep
      simp only [restoreLoop]
      cases hb : (restoreStep o i r s).2 <;>
        simp only [hb, Bool.false_eq_true, if_false, if_true] <;> exact hnext

/-- Minimizing preserves window titles. -/
theorem minimizeWinStep_title (keep : List String) (n : String) (w : Win) :
    (minimizeWinStep keep n w).title = w.title := by
  unfold minimizeWinStep
  split
  · rfl
  · split
    · rfl
    · rfl

/-- The exclusionary minimize pass leaves every process similar. -/
theorem minimize_sim (keep : List String) (procs : List Proc) :
    List.Forall₂ procSim (procs.map (minimizeProcStep keep)) procs := by
  induction procs with
  | nil => exact List.Forall₂.nil
  | cons p ps ih =>
      rw [List.map_cons]
      refine List.Forall₂.cons ?_ ih
      unfold minimizeProcStep
      split
      · refine ⟨rfl, rfl, rfl, rfl, ?_⟩
        show List.Perm ((p.windows.map (minimizeWinStep keep p.name)).map Win.title)
          (p.windows.map Win.title)
        rw [List.map_map]
        have hcomp : (Win.title ∘ minimizeWinStep keep p.name) = Win.title := by
          funext w
          exact minimizeWinStep_title keep p.name w
        rw [hcomp]
      · exact procSim_refl p

/-- When every process is visible, the minimize pass establishes the
keep-invariant over the whole process list. -/
theorem minimize_establishes_inv (keep : List String) (procs : List Proc)
    (hvis : allVisible procs) :
    KeepInv keep (procs.map (minimizeProcStep keep)) := by
  intro p' hp' hbid hbg w' hw' hkey
  rw [List.mem_map] at hp'
  obtain ⟨p, hp, rfl⟩ := hp'
  have hv := hvis p hp
  cases hcond : (p.visible && !p.backgroundOnly && !(p.bundleId == "com.raycast.macos")) with
  | false =>
      exfalso
      have heq : minimizeProcStep keep p = p := by
        unfold minimizeProcStep
        rw [hcond]
        simp only [Bool.false_eq_true, if_false]
      rw [heq] at hbid hbg
      have hb2 : (p.bundleId == "com.raycast.macos") = false := beq_eq_false_iff_ne.mpr hbid
      rw [hv, hbg, hb2] at hcond
      simp at hcond
  | true =>
      have heq : minimizeProcStep keep p =
          { p with windows := p.windows.map (minimizeWinStep keep p.name) } := by
        unfold minimizeProcStep
        rw [hcond, if_pos rfl]
      rw [heq] at hw' hkey
      have hw2 : w' ∈ p.windows.map (minimizeWinStep keep p.name) := hw'
      rw [List.mem_map] at hw2
      obtain ⟨w, hw, rfl⟩ := hw2
      have hkey2 : winKey p.name w.title ∉ keep := by
        intro hc
        apply hkey
        show winKey p.name (minimizeWinStep keep p.name w).title ∈ keep
        rw [minimizeWinStep_title]
        exact hc
      show (minimizeWinStep keep p.name w).minimized = true
      unfold minimizeWinStep
      cases hc : keep.contains (winKey p.name w.title) with
      | true =>
          exfalso
          apply hkey2
          simpa using hc
      | false =>
          simp only [Bool.false_eq_true, if_false]
          cases hm : w.minimized with
          | true => rw [if_pos rfl]; exact hm
          | false => simp only [Bool.false_eq_true, if_false]

/-- Visibility transports along similarity. -/
theorem allVisible_of_sim {ps qs : List Proc} (h : List.Forall₂ procSim ps qs)
    (hvis : allVisible qs) : allVisible ps := by
  intro p hp
  obtain ⟨q, hq, hpq⟩ := forall₂_mem_left h hp
  rw [hpq.2.2.1]
  exact hvis q hq

/-- The minimize pass keeps every process visible. -/
theorem allVisible_minimize (keep : List String) (procs : List Proc)
    (hvis : allVisible procs) :
    allVisible (procs.map (minimizeProcStep keep)) :=
  allVisible_of_sim (minimize_sim keep procs) hvis

/-- With every process already visible the visibility pass does nothing, for
any oracle. -/
theorem setVisiblePass_id (apps : List String) (o : Oracle) (procs : List Proc)
    (hvis : allVisible procs) : setVisiblePass apps o procs = procs := by
  induction apps with
  | nil => rfl
  | cons a apps ih =>
      show setVisiblePass apps o (setVisibleStep o procs a) = procs
      have hstep : setVisibleStep o procs a = procs := by
        unfold setVisibleStep
        cases hv : o.visFault a with
        | true => rw [if_pos rfl]
        | false =>
            simp only [Bool.false_eq_true, if_false]
            exact updateFirstProc_congr a _ procs
              (fun p hp _ => proc_visible_eta p (hvis p hp))
      rw [hstep]
      exact ih

/-- With no minimize fault, switching is the restore pass after the minimize
pass. -/
theorem switchToGroup_ok (g : List WindowInfo) (o : Oracle) (s : SystemState)
    (h : o.minFault = false) :
    switchToGroup g o s = Except.ok (restoreWindows g o
      { s with procs := s.procs.map (minimizeProcStep (g.map keepKey)) }) := by
  unfold switchToGroup minimizeAllExcept
  rw [h]
  simp only [Bool.false_eq_true, if_false]

/-! ## Head facts: the raised window is frontmost -/

/-- A restore step of a different application preserves a head fact. -/
theorem headFact_restoreStep (o : Oracle) (i : Nat) (r2 : WindowInfo) (s : SystemState)
    (r : WindowInfo) (hne : r.appName ≠ r2.appName) (h : headFact r s.procs) :
    headFact r (restoreStep o i r2 s).1.procs := by
  cases hw : o.winFault i with
  | true => rw [restoreStep_fault o i r2 s hw]; exact h
  | false =>
      cases hf : findFirstProc r2.appName s.procs with
      | none => rw [restoreStep_noproc o i r2 s hw hf]; exact h
      | some p =>
          cases hx : extractFirstWin r2.windowTitle p.windows with
          | none => rw [restoreStep_notfound o i r2 s p hw hf hx]; exact h
          | some pr =>
              obtain ⟨w, rest⟩ := pr
              rw [restoreStep_found o i r2 s p w rest hw hf hx]
              obtain ⟨q, hq, hrest⟩ := h
              refine ⟨q, ?_, hrest⟩
              show findFirstProc r.appName (updateFirstProc r2.appName
                (fun x => { x with windows := raiseWin w rest }) s.procs) = some q
              rw [findFirstProc_updateFirstProc_ne r.appName r2.appName
                (fun x => { x with windows := raiseWin w rest }) (fun x => rfl) hne]
              exact hq

/-- The restore loop over references of other applications preserves a head
fact. -/
theorem headFact_restoreLoop (o : Oracle) :
    ∀ (refs : List WindowInfo) (i : Nat) (s : SystemState) (r : WindowInfo),
      r.appName ∉ refs.map (fun x => x.appName) → headFact r s.procs →
      headFact r (restoreLoop o refs i s).1.procs := by
  intro refs
  induction refs with
  | nil => intro i s r _ h; exact h
  | cons r2 rest ih =>
      intro i s r hnin h
      rw [List.map_cons] at hnin
      have hne : r.appName ≠ r2.appName := fun hc => hnin (hc ▸ List.mem_cons_self _ _)
      have hnin2 : r.appName ∉ rest.map (fun x => x.appName) :=
        fun hc => hnin (List.mem_cons_of_mem _ hc)
      have hstep := headFact_restoreStep o i r2 s r hne h
      have hnext := ih (i + 1) (restoreStep o i r2 s).1 r hnin2 hstep
      simp only [restoreLoop]
      cases hb : (restoreStep o i r2 s).2 <;>
        simp only [hb, Bool.false_eq_true, if_false, if_true] <;> exact hnext

/-- Right after a found step, the raised window is the unminimized head of
its application. -/
theorem headFact_after_found (r : WindowInfo) (s : SystemState) (p : Proc) (w : Win)
    (rest2 : List Win) (hf : findFirstProc r.appName s.procs = some p)
    (hx : extractFirstWin r.windowTitle p.windows = some (w, rest2)) :
    headFact r (updateFirstProc r.appName
      (fun q => { q with windows := raiseWin w rest2 }) s.procs) := by
  refine ⟨{ p with windows := raiseWin w rest2 },
    findFirstProc_updateFirstProc_eq r.appName
      (fun q => { q with windows := raiseWin w rest2 }) (fun q => rfl) hf,
    { w with minimized := false }, rest2, rfl, ?_, rfl⟩
  obtain ⟨pre2, post2, _, _, ht, _⟩ := extractFirstWin_some _ hx
  exact ht

/-- Every reference of the group that is not reported missing ends with its
window unminimized and frontmost in its application, provided each
application appears at most once among the references. -/
theorem restoreLoop_headFact (o : Oracle) :
    ∀ (refs : List WindowInfo) (i : Nat) (s : SystemState),
      (refs.map (fun x => x.appName)).Nodup →
      ∀ r ∈ refs, r ∉ (restoreLoop o refs i s).2.2 →
        headFact r (restoreLoop o refs i s).1.procs := by
  intro refs
  induction refs with
  | nil => intro i s _ r hr _; simp at hr
  | cons r0 rest ih =>
      intro i s hnodup r hr hnf
      rw [List.map_cons, List.nodup_cons] at hnodup
      simp only [restoreLoop] at hnf ⊢
      cases hb : (restoreStep o i r0 s).2 with
      | false =>
          simp only [hb, Bool.false_eq_true, if_false] at hnf ⊢
          rcases List.mem_cons.mp hr with rfl | hr2
          · exact absurd (List.mem_cons_self _ _) hnf
          · exact ih (i + 1) (restoreStep o i r0 s).1 hnodup.2 r hr2
              (fun hc => hnf (List.mem_cons_of_mem _ hc))
      | true =>
          simp only [hb, if_true] at hnf ⊢
          rcases List.mem_cons.mp hr with rfl | hr2
          · obtain ⟨p, w, rest2, hwf, hf, hx, heq⟩ := restoreStep_true_inv o i r s hb
            have hh : headFact r (restoreStep o i r s).1.procs := by
              rw [heq]
              exact headFact_after_found r s p w rest2 hf hx
            exact headFact_restoreLoop o rest (i + 1) (restoreStep o i r s).1 r hnodup.1 hh
          · exact ih (i + 1) (restoreStep o i r0 s).1 hnodup.2 r hr2 hnf

/-! ## Claim C1 -/

/-- Without a minimize fault, switching succeeds and its fault flag is
clear. -/
theorem switchToGroup_ok_minFault {g : List WindowInfo} {o : Oracle} {s s' : SystemState}
    {res : SwitchResult} (heq : switchToGroup g o s = Except.ok (s', res)) :
    o.minFault = false := by
  cases hmf : o.minFault with
  | false => rfl
  | true =>
      unfold switchToGroup minimizeAllExcept at heq
      rw [hmf, if_pos rfl] at heq
      exact absurd heq (by simp)

/-- C1 counterexample: after a fault-free switch, a found group window need
not be frontmost within its application. With two references of the same
application, the window raised for the earlier reference is pushed behind
the one raised for the later reference. -/
theorem switch_invariant_false :
    ¬ (∀ (g : List WindowInfo) (o : Oracle) (s s' : SystemState) (res : SwitchResult),
        switchToGroup g o s = Except.ok (s', res) →
        (∀ p ∈ s'.procs, eligibleProc p = true → ∀ w ∈ p.windows,
          matchKey p.name w.title ∉ g.map getWindowKey → w.minimized = true) ∧
        (∀ r ∈ g, r ∉ res.notFound → ∀ p ∈ s'.procs, p.name = r.appName →
          ∀ w ∈ p.windows, w.title = r.windowTitle →
            w.minimized = false ∧ p.windows.head? = some w)) := by
  intro h
  have heq : switchToGroup gC1 oFF sC1 = Except.ok (sC1After, resC1) := by decide
  have h2 := (h gC1 oFF sC1 sC1After resC1 heq).2
    { appName := "A", windowTitle := "t1", windowId := "A::t1", bundleId := some "b" }
    (by decide) (by decide) procC1After (by decide) (by decide)
    { title := "t1", minimized := false } (by decide) (by decide)
  exact absurd h2.2 (by decide)

/-- C1 amended: assume every application is visible when the switch starts,
application names and window titles are pipe-free, and no two group
references share an application. Then after switchTo completes without a
whole-phase fault, every window of an eligible process whose match key is
not among the group match keys is minimized, and for every group reference
not reported missing, the first process with its application name carries an
unminimized frontmost window with the reference title. -/
theorem switch_invariant (g : List WindowInfo) (o : Oracle) (s s' : SystemState)
    (res : SwitchResult)
    (hvis : allVisible s.procs)
    (hpipeS : ∀ p ∈ s.procs, '|' ∉ p.name.data ∧ ∀ w ∈ p.windows, '|' ∉ w.title.data)
    (hpipeG : ∀ r ∈ g, '|' ∉ r.appName.data ∧ '|' ∉ r.windowTitle.data)
    (hnodup : (g.map (fun r => r.appName)).Nodup)
    (heq : switchToGroup g o s = Except.ok (s', res)) :
    (∀ p ∈ s'.procs, eligibleProc p = true → ∀ w ∈ p.windows,
      matchKey p.name w.title ∉ g.map getWindowKey → w.minimized = true) ∧
    (∀ r ∈ g, r ∉ res.notFound → headFact r s'.procs) := by
  have hmf : o.minFault = false := switchToGroup_ok_minFault heq
  rw [switchToGroup_ok g o s hmf] at heq
  have hsr : restoreWindows g o
      { s with procs := s.procs.map (minimizeProcStep (g.map keepKey)) } = (s', res) := by
    injection heq
  set keep := g.map keepKey with hkeepdef
  set s1 : SystemState :=
    { s with procs := s.procs.map (minimizeProcStep keep) } with hs1def
  have hvis1 : allVisible s1.procs := allVisible_minimize keep s.procs hvis
  have hpass : setVisiblePass (dedupFirst (g.map (fun w => w.appName))) o s1.procs =
      s1.procs := setVisiblePass_id _ o s1.procs hvis1
  have hrw : restoreWindows g o s1 =
      ((restoreLoop o g 0 s1).1, { shown := (restoreLoop o g 0 s1).2.1, notFound := (restoreLoop o g 0 s1).2.2 }) := by
    simp only [restoreWindows]
    rw [hpass]
  rw [hrw] at hsr
  have hs' : (restoreLoop o g 0 s1).1 = s' := congrArg Prod.fst hsr
  have hres : ({ shown := (restoreLoop o g 0 s1).2.1, notFound := (restoreLoop o g 0 s1).2.2 } : SwitchResult) = res :=
    congrArg Prod.snd hsr
  have hnf : (restoreLoop o g 0 s1).2.2 = res.notFound := by
    rw [← hres]
  have hsim : List.Forall₂ procSim s'.procs s.procs := by
    rw [← hs']
    exact forall₂_trans procSim_trans (restoreLoop_sim o g 0 s1) (minimize_sim keep s.procs)
  constructor
  · have hinv : KeepInv keep s'.procs := by
      rw [← hs']
      refine keepInv_restoreLoop o keep g 0 s1 ?_ ?_
      · intro r hr
        exact List.mem_map_of_mem keepKey hr
      · exact minimize_establishes_inv keep s.procs hvis
    intro p hp helig w hw hmk
    have hbundle : p.bundleId ≠ "com.raycast.macos" := by
      unfold eligibleProc at helig
      rw [Bool.and_eq_true, Bool.and_eq_true] at helig
      have := helig.2
      rw [Bool.not_eq_true'] at this
      exact (beq_eq_false_iff_ne).mp this
    have hbg : p.backgroundOnly = false := by
      unfold eligibleProc at helig
      rw [Bool.and_eq_true, Bool.and_eq_true] at helig
      have := helig.1.2
      rw [Bool.not_eq_true'] at this
      exact this
    refine hinv p hp hbundle hbg w hw ?_
    intro hkeymem
    apply hmk
    rw [hkeepdef] at hkeymem
    rw [List.mem_map] at hkeymem
    obtain ⟨r, hr, hkeyeq⟩ := hkeymem
    obtain ⟨q, hq, hpq⟩ := forall₂_mem_left hsim hp
    have hpn : '|' ∉ p.name.data := by
      rw [hpq.1]
      exact (hpipeS q hq).1
    have hwt : '|' ∉ w.title.data := by
      have hm : w.title ∈ q.windows.map Win.title :=
        hpq.2.2.2.2.mem_iff.mp (List.mem_map_of_mem Win.title hw)
      obtain ⟨w2, hw2, ht2⟩ := List.mem_map.mp hm
      rw [show Win.title w2 = w2.title from rfl] at ht2
      rw [← ht2]
      exact (hpipeS q hq).2 w2 hw2
    have hip := winKey_inj r.appName r.windowTitle p.name w.title
      (hpipeG r hr).1 hpn hkeyeq
    rw [List.mem_map]
    refine ⟨r, hr, ?_⟩
    unfold getWindowKey matchKey
    rw [hip.1, hip.2]
  · intro r hr hnotin
    rw [← hs']
    refine restoreLoop_headFact o g 0 s1 hnodup r hr ?_
    rw [hnf]
    exact hnotin

/-- Witness for the amended C1 at a concrete state with a minimized group
window, a second window of the same application and a second application. -/
theorem switch_invariant_witness :
    (allVisible sW1.procs ∧ (gW1.map (fun r => r.appName)).Nodup ∧
      switchToGroup gW1 oFF sW1 = Except.ok (sW1After, resW1)) ∧
    ((∀ p ∈ sW1After.procs, eligibleProc p = true → ∀ w ∈ p.windows,
      matchKey p.name w.title ∉ gW1.map getWindowKey → w.minimized = true) ∧
    (∀ r ∈ gW1, r ∉ resW1.notFound → headFact r sW1After.procs)) :=
  ⟨⟨by decide, by decide, by decide⟩,
    switch_invariant gW1 oFF sW1 sW1After resW1 (by decide) (by decide) (by decide)
      (by decide) (by decide)⟩

/-! ## First-match lemmas for idempotence -/

/-- The first window with a title other than the head title is found past the
head. -/
theorem firstWin_cons_ne (t : String) (u : Win) (X : List Win) (hu : u.title ≠ t) :
    firstWin t (u :: X) = firstWin t X := by
  unfold firstWin
  rw [extractFirstWin]
  have hb : (u.title == t) = false := beq_eq_false_iff_ne.mpr hu
  rw [hb]
  simp only [Bool.false_eq_true, if_false]
  cases hx : extractFirstWin t X with
  | none => rfl
  | some pr => obtain ⟨x, r⟩ := pr; rfl

/-- The first window with the head title is the head. -/
theorem firstWin_cons_eq (t : String) (u : Win) (X : List Win) (hu : u.title = t) :
    firstWin t (u :: X) = some u := by
  unfold firstWin
  rw [extractFirstWin]
  have hb : (u.title == t) = true := by simp [hu]
  rw [hb, if_pos rfl]
  rfl

/-- Removing a window with another title from the middle does not change the
first window with a given title. -/
theorem firstWin_middle (t : String) (w : Win) (hw : w.title ≠ t) :
    ∀ (pre post : List Win), firstWin t (pre ++ w :: post) = firstWin t (pre ++ post) := by
  intro pre
  induction pre with
  | nil =>
      intro post
      rw [List.nil_append, List.nil_append]
      exact firstWin_cons_ne t w post hw
  | cons u pre ih =>
      intro post
      rw [List.cons_append, List.cons_append]
      cases hu : decide (u.title = t) with
      | true =>
          have hu2 : u.title = t := of_decide_eq_true hu
          rw [firstWin_cons_eq t u _ hu2, firstWin_cons_eq t u _ hu2]
      | false =>
          have hu2 : u.title ≠ t := of_decide_eq_false hu
          rw [firstWin_cons_ne t u _ hu2, firstWin_cons_ne t u _ hu2]
          exact ih post

/-- A missing reference vacuously satisfies the first-match property. -/
theorem fmu_of_miss (procs : List Proc) (r : WindowInfo)
    (hm : missRef procs r = true) :
    firstMatchUnmin r.appName r.windowTitle procs := by
  intro p hp w hw
  unfold missRef at hm
  rw [hp] at hm
  have hm2 : (!(p.windows.any fun w => w.title == r.windowTitle)) = true := hm
  rw [Bool.not_eq_true'] at hm2
  have hx := (any_title_eq_extract _ _).mp hm2
  unfold firstWin at hw
  rw [hx] at hw
  simp at hw

/-- A restore step preserves the first-match-unminimized property. -/
theorem fmu_restoreStep (o : Oracle) (i : Nat) (r2 : WindowInfo) (s : SystemState)
    (a t : String) (h : firstMatchUnmin a t s.procs) :
    firstMatchUnmin a t (restoreStep o i r2 s).1.procs := by
  cases hw : o.winFault i with
  | true => rw [restoreStep_fault o i r2 s hw]; exact h
  | false =>
      cases hf : findFirstProc r2.appName s.procs with
      | none => rw [restoreStep_noproc o i r2 s hw hf]; exact h
      | some p =>
          cases hx : extractFirstWin r2.windowTitle p.windows with
          | none => rw [restoreStep_notfound o i r2 s p hw hf hx]; exact h
          | some pr =>
              obtain ⟨w, rest⟩ := pr
              rw [restoreStep_found o i r2 s p w rest hw hf hx]
              show firstMatchUnmin a t (updateFirstProc r2.appName
                (fun q => { q with windows := raiseWin w rest }) s.procs)
              by_cases hname : a = r2.appName
              · subst hname
                intro p' hp' w' hw'
                rw [findFirstProc_updateFirstProc_eq r2.appName
                  (fun q => { q with windows := raiseWin w rest }) (fun q => rfl) hf] at hp'
                obtain rfl : ({ p with windows := raiseWin w rest } : Proc) = p' := by
                  simpa using hp'
                have hw'2 : firstWin t (raiseWin w rest) = some w' := hw'
                obtain ⟨pre2, post2, hws, hrest, ht, _⟩ := extractFirstWin_some _ hx
                by_cases htt : w.title = t
                · rw [show raiseWin w rest = { w with minimized := false } :: rest from rfl] at hw'2
                  rw [firstWin_cons_eq t _ _ (by simpa using htt)] at hw'2
                  obtain rfl : ({ w with minimized := false } : Win) = w' := by simpa using hw'2
                  rfl
                · rw [show raiseWin w rest = { w with minimized := false } :: rest from rfl] at hw'2
                  rw [firstWin_cons_ne t _ _ (by simpa using htt)] at hw'2
                  rw [hrest, ← firstWin_middle t w htt pre2 post2, ← hws] at hw'2
                  exact h p hf w' hw'2
              · intro p' hp' w' hw'
                rw [findFirstProc_updateFirstProc_ne a r2.appName
                  (fun q => { q with windows := raiseWin w rest }) (fun q => rfl) hname] at hp'
                exact h p' hp' w' hw'

/-- The restore loop preserves the first-match-unminimized property. -/
theorem fmu_restoreLoop (o : Oracle) :
    ∀ (refs : List WindowInfo) (i : Nat) (s : SystemState) (a t : String),
      firstMatchUnmin a t s.procs →
      firstMatchUnmin a t (restoreLoop o refs i s).1.procs := by
  intro refs
  induction refs with
  | nil => intro i s a t h; exact h
  | cons r2 rest ih =>
      intro i s a t h
      have hstep := fmu_restoreStep o i r2 s a t h
      have hnext := ih (i + 1) (restoreStep o i r2 s).1 a t hstep
      simp only [restoreLoop]
      cases hb : (restoreStep o i r2 s).2 <;>
        simp only [hb, Bool.false_eq_true, if_false, if_true] <;> exact hnext

/-- After a found step, the first window with the reference title of the
reference application is unminimized. -/
theorem fmu_after_found (r : WindowInfo) (s : SystemState) (p : Proc) (w : Win)
    (rest2 : List Win) (hf : findFirstProc r.appName s.procs = some p)
    (hx : extractFirstWin r.windowTitle p.windows = some (w, rest2)) :
    firstMatchUnmin r.appName r.windowTitle (updateFirstProc r.appName
      (fun q => { q with windows := raiseWin w rest2 }) s.procs) := by
  intro p' hp' w' hw'
  rw [findFirstProc_updateFirstProc_eq r.appName
    (fun q => { q with windows := raiseWin w rest2 }) (fun q => rfl) hf] at hp'
  obtain rfl : ({ p with windows := raiseWin w rest2 } : Proc) = p' := by simpa using hp'
  have hw'2 : firstWin r.windowTitle (raiseWin w rest2) = some w' := hw'
  obtain ⟨pre2, post2, _, _, ht, _⟩ := extractFirstWin_some _ hx
  rw [show raiseWin w rest2 = { w with minimized := false } :: rest2 from rfl] at hw'2
  rw [firstWin_cons_eq _ _ _ (by simpa using ht)] at hw'2
  obtain rfl : ({ w with minimized := false } : Win) = w' := by simpa using hw'2
  rfl

/-- After a fault-free restore loop, every reference that did not miss has an
unminimized first matching window. -/
theorem restoreLoop_establishes_fmu (o : Oracle) (hwf : ∀ i, o.winFault i = false) :
    ∀ (refs : List WindowInfo) (i : Nat) (s : SystemState),
      ∀ r ∈ refs, missRef s.procs r = false →
        firstMatchUnmin r.appName r.windowTitle (restoreLoop o refs i s).1.procs := by
  intro refs
  induction refs with
  | nil => intro i s r hr _; simp at hr
  | cons r0 rest ih =>
      intro i s r hr hmiss
      have hmiss2 : ∀ r2, missRef (restoreStep o i r0 s).1.procs r2 = missRef s.procs r2 :=
        fun r2 => missRef_congr (restoreStep_sim o i r0 s) r2
      rcases List.mem_cons.mp hr with rfl | hr2
      · have hb : (restoreStep o i r s).2 = true := by
          rw [restoreStep_snd_eq o i r s (hwf i), hmiss]
          rfl
        obtain ⟨p, w, rest2, _, hf, hx, heqstep⟩ := restoreStep_true_inv o i r s hb
        have hafter : firstMatchUnmin r.appName r.windowTitle (restoreStep o i r s).1.procs := by
          rw [heqstep]
          exact fmu_after_found r s p w rest2 hf hx
        have hloop := fmu_restoreLoop o rest (i + 1) (restoreStep o i r s).1
          r.appName r.windowTitle hafter
        simp only [restoreLoop]
        cases hb2 : (restoreStep o i r s).2 <;>
          simp only [hb2, Bool.false_eq_true, if_false, if_true] <;> exact hloop
      · have hnext := ih (i + 1) (restoreStep o i r0 s).1 r hr2 (by rw [hmiss2]; exact hmiss)
        simp only [restoreLoop]
        cases hb2 : (restoreStep o i r0 s).2 <;>
          simp only [hb2, Bool.false_eq_true, if_false, if_true] <;> exact hnext

/-- The process-permutation relation is reflexive. -/
theorem procPerm_refl (p : Proc) : procPerm p p :=
  ⟨rfl, rfl, rfl, rfl, List.Perm.refl _⟩

/-- The process-permutation relation is transitive. -/
theorem procPerm_trans (p q r : Proc) (h1 : procPerm p q) (h2 : procPerm q r) : procPerm p r :=
  ⟨h1.1.trans h2.1, h1.2.1.trans h2.2.1, h1.2.2.1.trans h2.2.2.1,
    h1.2.2.2.1.trans h2.2.2.2.1, h1.2.2.2.2.trans h2.2.2.2.2⟩

/-- A restore step whose target first match is already unminimized only
permutes window records. -/
theorem restoreStep_perm (o : Oracle) (i : Nat) (r : WindowInfo) (s : SystemState)
    (hfmu : firstMatchUnmin r.appName r.windowTitle s.procs) :
    List.Forall₂ procPerm (restoreStep o i r s).1.procs s.procs := by
  have hrefl : List.Forall₂ procPerm s.procs s.procs :=
    List.forall₂_same.mpr (fun x _ => procPerm_refl x)
  cases hw : o.winFault i with
  | true => rw [restoreStep_fault o i r s hw]; exact hrefl
  | false =>
      cases hf : findFirstProc r.appName s.procs with
      | none => rw [restoreStep_noproc o i r s hw hf]; exact hrefl
      | some p =>
          cases hx : extractFirstWin r.windowTitle p.windows with
          | none => rw [restoreStep_notfound o i r s p hw hf hx]; exact hrefl
          | some pr =>
              obtain ⟨w, rest⟩ := pr
              rw [restoreStep_found o i r s p w rest hw hf hx]
              obtain ⟨pre, post, hps, hupd, hpre⟩ :=
                updateFirstProc_of_find r.appName
                  (fun q => { q with windows := raiseWin w rest }) hf
              show List.Forall₂ procPerm (updateFirstProc r.appName
                (fun q => { q with windows := raiseWin w rest }) s.procs) s.procs
              rw [hupd]
              conv_rhs => rw [hps]
              refine List.rel_append (List.forall₂_same.mpr (fun x _ => procPerm_refl x)) ?_
              refine List.Forall₂.cons ?_ (List.forall₂_same.mpr (fun x _ => procPerm_refl x))
              refine ⟨rfl, rfl, rfl, rfl, ?_⟩
              obtain ⟨pre2, post2, hws, hrest, ht, _⟩ := extractFirstWin_some _ hx
              have hwm : w.minimized = false := by
                apply hfmu p hf w
                unfold firstWin
                rw [hx]
                rfl
              show List.Perm (raiseWin w rest) p.windows
              rw [show raiseWin w rest = { w with minimized := false } :: rest from rfl]
              rw [win_unmin_eta w hwm, hrest, hws]
              exact (List.perm_middle).symm

/-- A fault-free restore loop over references whose first matches are
unminimized only permutes window records. -/
theorem restoreLoop_perm (o : Oracle) :
    ∀ (refs : List WindowInfo) (i : Nat) (s : SystemState),
      (∀ r ∈ refs, firstMatchUnmin r.appName r.windowTitle s.procs) →
      List.Forall₂ procPerm (restoreLoop o refs i s).1.procs s.procs := by
  intro refs
  induction refs with
  | nil =>
      intro i s _
      exact List.forall₂_same.mpr (fun x _ => procPerm_refl x)
  | cons r rest ih =>
      intro i s hfmu
      have hstep := restoreStep_perm o i r s (hfmu r (List.mem_cons_self r rest))
      have hfmu2 : ∀ r2 ∈ rest, firstMatchUnmin r2.appName r2.windowTitle
          (restoreStep o i r s).1.procs :=
        fun r2 hr2 => fmu_restoreStep o i r s r2.appName r2.windowTitle
          (hfmu r2 (List.mem_cons_of_mem r hr2))
      have hnext := ih (i + 1) (restoreStep o i r s).1 hfmu2
      simp only [restoreLoop]
      cases hb : (restoreStep o i r s).2 <;>
        simp only [hb, Bool.false_eq_true, if_false, if_true] <;>
        exact forall₂_trans procPerm_trans hnext hstep

/-- Membership in the visible pairs of one process only depends on the
process up to window permutation. -/
theorem procVisPairs_mem_congr {p q : Proc} (h : procPerm p q) :
    ∀ x, x ∈ procVisPairs p ↔ x ∈ procVisPairs q := by
  intro x
  obtain ⟨hn, hb, hv, hbg, hperm⟩ := h
  unfold procVisPairs eligibleProc
  rw [hn, hb, hv, hbg]
  cases helig : (q.visible && !q.backgroundOnly && !(q.bundleId == "com.raycast.macos")) with
  | false =>
      simp only [Bool.false_eq_true, if_false]
  | true =>
      rw [if_pos rfl, if_pos rfl]
      have hf : List.Perm (p.windows.filter (fun w => !w.minimized))
          (q.windows.filter (fun w => !w.minimized)) := hperm.filter _
      have hm : List.Perm ((p.windows.filter (fun w => !w.minimized)).map (fun w => (q.name, w.title)))
          ((q.windows.filter (fun w => !w.minimized)).map (fun w => (q.name, w.title))) :=
        hf.map _
      exact hm.mem_iff

/-- Membership in the flattened visible pairs transports along pointwise
window permutation. -/
theorem flatMap_visPairs_mem_congr :
    ∀ {ps qs : List Proc}, List.Forall₂ procPerm ps qs →
      ∀ x, x ∈ ps.flatMap procVisPairs ↔ x ∈ qs.flatMap procVisPairs := by
  intro ps qs h
  induction h with
  | nil => intro x; exact Iff.rfl
  | cons hpq hrest ih =>
      intro x
      rw [List.flatMap_cons, List.flatMap_cons, List.mem_append, List.mem_append]
      rw [procVisPairs_mem_congr hpq x, ih x]

/-- Membership in the visible-window set transports along pointwise window
permutation of the process lists. -/
theorem visibleWindows_mem_congr {s1 s2 : SystemState}
    (h : List.Forall₂ procPerm s1.procs s2.procs) :
    ∀ x, x ∈ visibleWindows s1 ↔ x ∈ visibleWindows s2 :=
  fun x => flatMap_visPairs_mem_congr h x

/-! ## Claim C3 -/

/-- Decomposition of a successful switch over an all-visible state into the
restore loop after the minimize pass. -/
theorem switchToGroup_ok_decomp (g : List WindowInfo) (o : Oracle) (s s' : SystemState)
    (res : SwitchResult) (hvis : allVisible s.procs)
    (heq : switchToGroup g o s = Except.ok (s', res)) :
    (restoreLoop o g 0 { s with procs := s.procs.map (minimizeProcStep (g.map keepKey)) }).1 = s' ∧
    (restoreLoop o g 0 { s with procs := s.procs.map (minimizeProcStep (g.map keepKey)) }).2.1 = res.shown ∧
    (restoreLoop o g 0 { s with procs := s.procs.map (minimizeProcStep (g.map keepKey)) }).2.2 = res.notFound := by
  have hmf : o.minFault = false := switchToGroup_ok_minFault heq
  rw [switchToGroup_ok g o s hmf] at heq
  have hsr : restoreWindows g o
      { s with procs := s.procs.map (minimizeProcStep (g.map keepKey)) } = (s', res) := by
    injection heq
  have hvis1 : allVisible ({ s with
      procs := s.procs.map (minimizeProcStep (g.map keepKey)) } : SystemState).procs :=
    allVisible_minimize _ s.procs hvis
  have hpass : setVisiblePass (dedupFirst (g.map (fun w => w.appName))) o
      ({ s with procs := s.procs.map (minimizeProcStep (g.map keepKey)) } : SystemState).procs =
      ({ s with procs := s.procs.map (minimizeProcStep (g.map keepKey)) } : SystemState).procs :=
    setVisiblePass_id _ o _ hvis1
  have hrw : restoreWindows g o
      { s with procs := s.procs.map (minimizeProcStep (g.map keepKey)) } =
      ((restoreLoop o g 0 { s with procs := s.procs.map (minimizeProcStep (g.map keepKey)) }).1,
        { shown := (restoreLoop o g 0 { s with procs := s.procs.map (minimizeProcStep (g.map keepKey)) }).2.1, notFound := (restoreLoop o g 0 { s with procs := s.procs.map (minimizeProcStep (g.map keepKey)) }).2.2 }) := by
    simp only [restoreWindows]
    rw [hpass]
  rw [hrw] at hsr
  have hsnd : ({ shown := (restoreLoop o g 0 { s with procs := s.procs.map (minimizeProcStep (g.map keepKey)) }).2.1, notFound := (restoreLoop o g 0 { s with procs := s.procs.map (minimizeProcStep (g.map keepKey)) }).2.2 } : SwitchResult) = res :=
    congrArg Prod.snd hsr
  refine ⟨congrArg Prod.fst hsr, ?_, ?_⟩
  · rw [← hsnd]
  · rw [← hsnd]

/-- Pointwise-fixed maps are the identity. -/
theorem map_eq_self_of_forall {α : Type} (f : α → α) :
    ∀ (l : List α), (∀ x ∈ l, f x = x) → l.map f = l := by
  intro l
  induction l with
  | nil => intro _; rfl
  | cons x l ih =>
      intro h
      rw [List.map_cons, h x (List.mem_cons_self x l),
        ih (fun y hy => h y (List.mem_cons_of_mem x hy))]

/-- Once the keep-invariant holds, the minimize pass does nothing. -/
theorem minimize_id_of_inv (keep : List String) (procs : List Proc)
    (hinv : KeepInv keep procs) :
    procs.map (minimizeProcStep keep) = procs := by
  apply map_eq_self_of_forall
  intro p hp
  unfold minimizeProcStep
  cases hcond : (p.visible && !p.backgroundOnly && !(p.bundleId == "com.raycast.macos")) with
  | false => simp only [Bool.false_eq_true, if_false]
  | true =>
      rw [if_pos rfl]
      have hbg : p.backgroundOnly = false := by
        rw [Bool.and_eq_true, Bool.and_eq_true] at hcond
        have h2 := hcond.1.2
        rw [Bool.not_eq_true'] at h2
        exact h2
      have hbid : p.bundleId ≠ "com.raycast.macos" := by
        rw [Bool.and_eq_true, Bool.and_eq_true] at hcond
        have h2 := hcond.2
        rw [Bool.not_eq_true'] at h2
        exact beq_eq_false_iff_ne.mp h2
      have hws : p.windows.map (minimizeWinStep keep p.name) = p.windows := by
        apply map_eq_self_of_forall
        intro w hw
        unfold minimizeWinStep
        cases hc : keep.contains (winKey p.name w.title) with
        | true => rw [if_pos rfl]
        | false =>
            simp only [Bool.false_eq_true, if_false]
            have hnotin : winKey p.name w.title ∉ keep := by
              intro hmem
              have hc2 : keep.contains (winKey p.name w.title) = true := by simpa using hmem
              rw [hc2] at hc
              exact Bool.noConfusion hc
            have hmin := hinv p hp hbid hbg w hw hnotin
            rw [hmin, if_pos rfl]
      rw [hws]

/-- C3 counterexample: when a group application is hidden at the time of the
first switch, the first switch un-hides it and exposes its non-group
windows, which only the second switch minimizes, so the two consecutive
fault-free switches end with different visible-window sets. -/
theorem switch_idempotent_false :
    ¬ (∀ (g : List WindowInfo) (o : Oracle) (s s1 s2 : SystemState) (r1 r2 : SwitchResult),
        faultFree o → switchToGroup g o s = Except.ok (s1, r1) →
        switchToGroup g o s1 = Except.ok (s2, r2) →
        ((∀ x, x ∈ visibleWindows s2 ↔ x ∈ visibleWindows s1) ∧ r2 = r1)) := by
  intro h
  have hff : faultFree oFF := ⟨rfl, fun a => rfl, fun i => rfl⟩
  have h2 := h gA oFF sHidden sHid1 sHid2 resHid resHid hff (by decide) (by decide)
  have h3 := (h2.1 ("A", "u")).mpr (by decide)
  exact absurd h3 (by decide)

/-- C3 amended: provided every application is visible when the first switch
starts and no external call faults, two consecutive switches to the same
group with no intervening window changes end with the same visible-window
set, and the second switch reports the same shown count and the same
notFound sequence as the first. -/
theorem switch_idempotent (g : List WindowInfo) (o : Oracle) (s s1 s2 : SystemState)
    (r1 r2 : SwitchResult)
    (hvis : allVisible s.procs) (hff : faultFree o)
    (h1 : switchToGroup g o s = Except.ok (s1, r1))
    (h2 : switchToGroup g o s1 = Except.ok (s2, r2)) :
    (∀ x, x ∈ visibleWindows s2 ↔ x ∈ visibleWindows s1) ∧ r2 = r1 := by
  obtain ⟨hmf, hvf, hwf⟩ := hff
  obtain ⟨hA1, hA2, hA3⟩ := switchToGroup_ok_decomp g o s s1 r1 hvis h1
  have hvisA : allVisible ({ s with
      procs := s.procs.map (minimizeProcStep (g.map keepKey)) } : SystemState).procs :=
    allVisible_minimize _ s.procs hvis
  have hvis1 : allVisible s1.procs := by
    rw [← hA1]
    exact allVisible_of_sim (restoreLoop_sim o g 0 _) hvisA
  have hinvA : KeepInv (g.map keepKey) ({ s with
      procs := s.procs.map (minimizeProcStep (g.map keepKey)) } : SystemState).procs :=
    minimize_establishes_inv _ s.procs hvis
  have hinv1 : KeepInv (g.map keepKey) s1.procs := by
    rw [← hA1]
    exact keepInv_restoreLoop o _ g 0 _ (fun r hr => List.mem_map_of_mem keepKey hr) hinvA
  obtain ⟨hB1, hB2, hB3⟩ := switchToGroup_ok_decomp g o s1 s2 r2 hvis1 h2
  have hid : s1.procs.map (minimizeProcStep (g.map keepKey)) = s1.procs :=
    minimize_id_of_inv _ s1.procs hinv1
  have hstate : ({ s1 with
      procs := s1.procs.map (minimizeProcStep (g.map keepKey)) } : SystemState) = s1 := by
    rw [hid]
  rw [hstate] at hB1 hB2 hB3
  have hsimA : List.Forall₂ procSim s1.procs ({ s with
      procs := s.procs.map (minimizeProcStep (g.map keepKey)) } : SystemState).procs := by
    rw [← hA1]
    exact restoreLoop_sim o g 0 _
  have hnfA : r1.notFound = g.filter (fun r => missRef ({ s with
      procs := s.procs.map (minimizeProcStep (g.map keepKey)) } : SystemState).procs r) := by
    rw [← hA3]
    exact restoreLoop_notFound_eq o hwf g 0 _
  have hnfB : r2.notFound = g.filter (fun r => missRef s1.procs r) := by
    rw [← hB3]
    exact restoreLoop_notFound_eq o hwf g 0 s1
  have hnfeq : r2.notFound = r1.notFound := by
    rw [hnfA, hnfB]
    exact List.filter_congr (fun r hr => missRef_congr hsimA r)
  have hshown : r2.shown = r1.shown := by
    have e1 : r1.shown + r1.notFound.length = g.length := by
      rw [← hA2, ← hA3]
      exact (restoreLoop_shape o g 0 _).1
    have e2 : r2.shown + r2.notFound.length = g.length := by
      rw [← hB2, ← hB3]
      exact (restoreLoop_shape o g 0 s1).1
    rw [hnfeq] at e2
    omega
  have hreq : r2 = r1 := by
    cases r1 with
    | mk a b =>
        cases r2 with
        | mk c d =>
            simp only [SwitchResult.mk.injEq]
            exact ⟨hshown, hnfeq⟩
  refine ⟨?_, hreq⟩
  have hfmu1 : ∀ r ∈ g, firstMatchUnmin r.appName r.windowTitle s1.procs := by
    intro r hr
    cases hm : missRef s1.procs r with
    | true => exact fmu_of_miss s1.procs r hm
    | false =>
        have hmA : missRef ({ s with
            procs := s.procs.map (minimizeProcStep (g.map keepKey)) } : SystemState).procs r = false := by
          rw [← missRef_congr hsimA r]
          exact hm
        have hfm := restoreLoop_establishes_fmu o hwf g 0 _ r hr hmA
        rw [hA1] at hfm
        exact hfm
  have hperm : List.Forall₂ procPerm s2.procs s1.procs := by
    rw [← hB1]
    exact restoreLoop_perm o g 0 s1 hfmu1
  exact visibleWindows_mem_congr hperm

/-- Witness for the amended C3 at a concrete one-window state that the
switch fixes. -/
theorem switch_idempotent_witness :
    (allVisible sA.procs ∧ faultFree oFF ∧
      switchToGroup gA oFF sA = Except.ok (sA1, resA1) ∧
      switchToGroup gA oFF sA1 = Except.ok (sA1, resA1)) ∧
    ((∀ x, x ∈ visibleWindows sA1 ↔ x ∈ visibleWindows sA1) ∧ resA1 = resA1) :=
  ⟨⟨by decide, ⟨rfl, fun a => rfl, fun i => rfl⟩, by decide, by decide⟩,
    switch_idempotent gA oFF sA sA1 sA1 resA1 resA1 (by decide)
      ⟨rfl, fun a => rfl, fun i => rfl⟩ (by decide) (by decide)⟩
